import Mathlib

set_option maxHeartbeats 1000000

/-!
Shallow embedding of the storage/consistency core of a small xv6-style
teaching kernel: the logging layer (log.c), the bucketed buffer cache
(bio.c), and the inode layer (fs.c).  Machine integers are modelled as
Nat with explicit wraparound where the code can overflow; panics are
modelled as Option returning none; disk writes and other externally
visible effects are recorded as explicit event traces.
-/

/-- Modelled from the spec: `BSIZE` (fs.h, not under src), the block size in bytes. -/
def BSIZE : Nat := 1024

/-- Modelled from the spec: `MAXOPBLOCKS` (param.h, not under src), the
per-operation reservation used by the log admission check. -/
def MAXOPBLOCKS : Nat := 10

/-- Modelled from the spec: `LOGSIZE` (param.h, not under src); the log source
comments record its value as 30. -/
def LOGSIZE : Nat := 30

/-- Modelled from the spec: `NDIRECT = 11` direct block addresses per inode. -/
def NDIRECT : Nat := 11

/-- Modelled from the spec: `NINDIRECT = BSIZE/4` addresses per indirect block. -/
def NINDIRECT : Nat := BSIZE / 4

/-- Maximum file size in blocks: `NDIRECT + NINDIRECT + NINDIRECT*NINDIRECT`. -/
def MAXFILE : Nat := NDIRECT + NINDIRECT + NINDIRECT * NINDIRECT

/-- Modelled from the spec: `DIRSIZ = 14`, directory-entry name length. -/
def DIRSIZ : Nat := 14

/-- Number of hash buckets in the buffer cache (bio.c). -/
def NBUFMAP_BUCKET : Nat := 13

/-! ## Log layer: `log_write` (log.c) -/

/-- In-memory log state relevant to `log_write`: `size` is `log.size`,
`outstanding` is `log.outstanding`, `blocks` is `lh.block[0..lh.n)` (so
`lh.n = blocks.length`), and `pins` is the trace of `bpin` calls made so far. -/
structure LogSt where
  size : Nat
  outstanding : Nat
  blocks : List Nat
  pins : List Nat
  deriving Repr, DecidableEq

/-- `log_write(b)` from log.c.  Panics (none) when `lh.n >= LOGSIZE` or
`lh.n >= log.size - 1` or `outstanding < 1`.  Otherwise scans
`lh.block[0..lh.n)` for the first slot equal to `b->blockno` (log absorption);
writes the slot (index `lh.n` when absent), and when the block was absent also
pins the buffer and increments `lh.n`. -/
def log_write (st : LogSt) (bno : Nat) : Option LogSt :=
  if LOGSIZE ≤ st.blocks.length ∨ st.size - 1 ≤ st.blocks.length then
    none
  else if st.outstanding < 1 then
    none
  else
    let i := st.blocks.findIdx (fun b => b = bno)
    if i = st.blocks.length then
      some { st with blocks := st.blocks ++ [bno], pins := st.pins ++ [bno] }
    else
      some { st with blocks := st.blocks.set i bno }

theorem set_findIdx_self (l : List Nat) (bno : Nat) (h : bno ∈ l) :
    l.set (l.findIdx (fun b => b = bno)) bno = l := by
  induction l with
  | nil => cases h
  | cons a t ih =>
      by_cases ha : a = bno
      · subst ha
        simp [List.findIdx_cons]
      · have hmem : bno ∈ t := by
          cases h with
          | head => exact absurd rfl ha
          | tail _ h2 => exact h2
        simp [List.findIdx_cons, ha, ih hmem]

theorem findIdx_eq_length_of_not_mem (l : List Nat) (bno : Nat) (h : bno ∉ l) :
    l.findIdx (fun b => b = bno) = l.length := by
  induction l with
  | nil => simp
  | cons a t ih =>
      have ha : a ≠ bno := fun hab => h (hab ▸ List.mem_cons_self a t)
      have ht : bno ∉ t := fun hm => h (List.mem_cons_of_mem a hm)
      simp [List.findIdx_cons, ha, ih ht]

theorem findIdx_lt_length_of_mem (l : List Nat) (bno : Nat) (h : bno ∈ l) :
    l.findIdx (fun b => b = bno) < l.length := by
  induction l with
  | nil => cases h
  | cons a t ih =>
      by_cases ha : a = bno
      · simp [List.findIdx_cons, ha]
      · have hmem : bno ∈ t := by
          cases h with
          | head => exact absurd rfl ha
          | tail _ h2 => exact h2
        simpa [List.findIdx_cons, ha, Nat.succ_lt_succ_iff] using ih hmem

/-- C4: log absorption.  When `b.blockno` already occurs in `lh.block[0..lh.n)`,
`log_write` leaves the whole log state unchanged (no new slot, no new pin);
when it is absent, `log_write` appends the block number, pins the buffer and
increments `lh.n` by one — and a second `log_write` of the same block number
then changes nothing, so two writes of one block consume exactly one slot. -/
theorem log_write_absorption (st : LogSt) (bno : Nat)
    (hcap : st.blocks.length + 1 < LOGSIZE)
    (hsz : st.blocks.length + 1 < st.size - 1)
    (hout : 1 ≤ st.outstanding) :
    (bno ∈ st.blocks → log_write st bno = some st) ∧
    (bno ∉ st.blocks →
      log_write st bno =
        some { st with blocks := st.blocks ++ [bno], pins := st.pins ++ [bno] } ∧
      log_write { st with blocks := st.blocks ++ [bno], pins := st.pins ++ [bno] } bno =
        some { st with blocks := st.blocks ++ [bno], pins := st.pins ++ [bno] }) := by
  have hg1 : ¬ (LOGSIZE ≤ st.blocks.length ∨ st.size - 1 ≤ st.blocks.length) := by
    push_neg
    omega
  have hg2 : ¬ st.outstanding < 1 := by omega
  constructor
  · intro hmem
    have hlt := findIdx_lt_length_of_mem st.blocks bno hmem
    have hset := set_findIdx_self st.blocks bno hmem
    simp only [log_write, if_neg hg1, if_neg hg2]
    rw [if_neg (Nat.ne_of_lt hlt)]
    simp [hset]
  · intro hnm
    have hidx := findIdx_eq_length_of_not_mem st.blocks bno hnm
    constructor
    · simp only [log_write, if_neg hg1, if_neg hg2]
      rw [if_pos hidx]
    · have hmem2 : bno ∈ st.blocks ++ [bno] := by simp
      have hg1b : ¬ (LOGSIZE ≤ (st.blocks ++ [bno]).length ∨
          st.size - 1 ≤ (st.blocks ++ [bno]).length) := by
        push_neg
        simp only [List.length_append, List.length_cons, List.length_nil]
        omega
      have hlt := findIdx_lt_length_of_mem (st.blocks ++ [bno]) bno hmem2
      have hset := set_findIdx_self (st.blocks ++ [bno]) bno hmem2
      simp only [log_write, if_neg hg1b, if_neg hg2]
      rw [if_neg (Nat.ne_of_lt hlt)]
      simp [hset]

/-- Witness for C4 at a concrete log state. -/
theorem log_write_absorption_witness :
    log_write ⟨10, 1, [7], [7]⟩ 7 = some ⟨10, 1, [7], [7]⟩ :=
  (log_write_absorption ⟨10, 1, [7], [7]⟩ 7 (by decide) (by decide) (by decide)).1
    (by decide)

/-! ## Log layer: begin_op / end_op state machine (log.c) -/

/-- The control state of the log: `outstanding` open operations, the
`committing` flag, and `lhn = lh.n`. -/
structure LogCtl where
  outstanding : Nat
  committing : Bool
  lhn : Nat
  deriving Repr, DecidableEq

/-- One completed step of the log control code, from log.c.  A `begin_op`
that sleeps has not completed, so sleeping is represented by the absence of a
transition: `begin_op` completes only when `committing` is false and
`lh.n + (outstanding+1)*MAXOPBLOCKS <= LOGSIZE`, and then increments
`outstanding`.  `log_write` inside an operation either appends a slot or
absorbs.  `end_op` decrements `outstanding` (panicking if `committing` is
already set, hence the `committing = false` guard) and raises `committing`
exactly when the count drops to zero.  `commit_done` is the tail of `end_op`
after `commit()` returns: it clears `committing` and leaves `lh.n = 0`. -/
inductive LogStep : LogCtl → LogCtl → Prop
  | begin_op (s : LogCtl) (hc : s.committing = false)
      (hcap : s.lhn + (s.outstanding + 1) * MAXOPBLOCKS ≤ LOGSIZE) :
      LogStep s ⟨s.outstanding + 1, false, s.lhn⟩
  | log_write_new (s : LogCtl) (h : 1 ≤ s.outstanding) (hn : s.lhn < LOGSIZE) :
      LogStep s ⟨s.outstanding, s.committing, s.lhn + 1⟩
  | log_write_absorb (s : LogCtl) (h : 1 ≤ s.outstanding) :
      LogStep s s
  | end_op (s : LogCtl) (hc : s.committing = false) (h : 1 ≤ s.outstanding) :
      LogStep s ⟨s.outstanding - 1, s.outstanding - 1 == 0, s.lhn⟩
  | commit_done (s : LogCtl) (hc : s.committing = true) (ho : s.outstanding = 0) :
      LogStep s ⟨0, false, 0⟩

/-- States reachable from IDLE (`outstanding = 0`, `committing = false`,
empty log header). -/
def LogReachable (s : LogCtl) : Prop :=
  Relation.ReflTransGen LogStep ⟨0, false, 0⟩ s

/-- C5: the log state machine.  (a) Every reachable state is IDLE, ACTIVE or
COMMITTING: `committing` and `outstanding > 0` never hold together at a step
boundary.  (b) Any step that increments `outstanding` is a completed
`begin_op`, so it requires `committing = false` and the reservation bound
`lh.n + (outstanding+1)*MAXOPBLOCKS <= LOGSIZE`.  (c) Any step that decrements
`outstanding` from a non-committing state (an `end_op`) sets `committing`
exactly when `outstanding` drops to zero. -/
theorem log_state_machine :
    (∀ s, LogReachable s → s.committing = true → s.outstanding = 0) ∧
    (∀ s t, LogStep s t → t.outstanding = s.outstanding + 1 →
      s.committing = false ∧
        s.lhn + (s.outstanding + 1) * MAXOPBLOCKS ≤ LOGSIZE) ∧
    (∀ s t, LogStep s t → s.committing = false → s.outstanding = t.outstanding + 1 →
      (t.committing = true ↔ t.outstanding = 0)) := by
  refine ⟨?_, ?_, ?_⟩
  · intro s hreach
    induction hreach with
    | refl => intro h; cases h
    | tail _ hstep ih =>
        cases hstep with
        | begin_op hc hcap => intro h; cases h
        | log_write_new h hn =>
            intro hcom
            exact absurd (ih hcom) (by omega)
        | log_write_absorb h =>
            intro hcom
            exact absurd (ih hcom) (by omega)
        | end_op hc h =>
            intro hcom
            exact beq_iff_eq.mp hcom
        | commit_done hc ho => intro h; cases h
  · intro s t hstep heq
    cases hstep with
    | begin_op hc hcap => exact ⟨hc, hcap⟩
    | log_write_new h hn =>
        exact absurd (show s.outstanding = s.outstanding + 1 from heq) (by omega)
    | log_write_absorb h => exact absurd heq (by omega)
    | end_op hc h =>
        exact absurd (show s.outstanding - 1 = s.outstanding + 1 from heq) (by omega)
    | commit_done hc ho =>
        exact absurd (show 0 = s.outstanding + 1 from heq) (by omega)
  · intro s t hstep hc heq
    cases hstep with
    | begin_op hc2 hcap =>
        exact absurd (show s.outstanding = (s.outstanding + 1) + 1 from heq) (by omega)
    | log_write_new h hn =>
        exact absurd (show s.outstanding = s.outstanding + 1 from heq) (by omega)
    | log_write_absorb h => exact absurd heq (by omega)
    | end_op hc2 h =>
        constructor
        · intro hb
          exact beq_iff_eq.mp hb
        · intro hb
          exact beq_iff_eq.mpr hb
    | commit_done hc2 ho => exact absurd hc2 (by simp [hc])

/-- Witness for C5: the COMMITTING state `(0, true, 0)` is reached by a
`begin_op` followed by the final `end_op`, and part (a) of the theorem
instantiated there yields `outstanding = 0`. -/
theorem log_state_machine_witness : (⟨0, true, 0⟩ : LogCtl).outstanding = 0 := by
  have h1 : LogStep ⟨0, false, 0⟩ ⟨1, false, 0⟩ := by
    have h := LogStep.begin_op ⟨0, false, 0⟩ rfl (by decide)
    simpa using h
  have h2 : LogStep ⟨1, false, 0⟩ ⟨0, true, 0⟩ := by
    have h := LogStep.end_op ⟨1, false, 0⟩ rfl (by decide)
    simpa using h
  have hreach : LogReachable ⟨0, true, 0⟩ :=
    Relation.ReflTransGen.tail (Relation.ReflTransGen.tail Relation.ReflTransGen.refl h1) h2
  exact log_state_machine.1 ⟨0, true, 0⟩ hreach rfl

/-! ## Log layer: commit (log.c) -/

/-- Externally visible events of the log code: a `bwrite` of a disk block
and a `bunpin` of a cached buffer. -/
inductive LogEv where
  | bwrite (bno : Nat)
  | bunpin (bno : Nat)
  deriving Repr, DecidableEq

/-- State acted on by `commit`: the log region start (`log.start`), the
in-memory header (`lhn = lh.n`, `lhblock = lh.block`), the buffer-cache
payload of every block number, the on-disk payload of every block number, and
the on-disk header block content (the pair written by `write_head`).
Payloads are abstract natural numbers. -/
structure CSt where
  start : Nat
  lhn : Nat
  lhblock : Nat → Nat
  cache : Nat → Nat
  disk : Nat → Nat
  diskHead : Nat × List Nat

/-- Body of the `write_log` loop (log.c): for `fuel` iterations starting at
index `tail`, copy the cached payload of home block `lh.block[tail]` into the
cache of log block `start+tail+1` and `bwrite` it. -/
def write_log_go (st : CSt) (tail : Nat) : Nat → CSt × List LogEv
  | 0 => (st, [])
  | fuel + 1 =>
      let src := st.lhblock tail
      let st2 := { st with
        cache := Function.update st.cache (st.start + tail + 1) (st.cache src),
        disk := Function.update st.disk (st.start + tail + 1) (st.cache src) }
      let r := write_log_go st2 (tail + 1) fuel
      (r.1, LogEv.bwrite (st.start + tail + 1) :: r.2)

/-- `write_log` from log.c: the loop runs for `tail = 0 .. lh.n-1`. -/
def write_log (st : CSt) : CSt × List LogEv :=
  write_log_go st 0 st.lhn

/-- `write_head` from log.c: write the in-memory header (`lh.n` and the first
`lh.n` entries of `lh.block`) to the header block `log.start` and `bwrite` it.
This is the commit point. -/
def write_head (st : CSt) : CSt × List LogEv :=
  ({ st with diskHead := (st.lhn, (List.range st.lhn).map st.lhblock) },
    [LogEv.bwrite st.start])

/-- Body of the `install_trans` loop (log.c): for `fuel` iterations starting
at `tail`, copy the cached payload of log block `start+tail+1` to home block
`lh.block[tail]`, `bwrite` it, and (when not recovering) `bunpin` it. -/
def install_trans_go (st : CSt) (recovering : Bool) (tail : Nat) :
    Nat → CSt × List LogEv
  | 0 => (st, [])
  | fuel + 1 =>
      let dst := st.lhblock tail
      let v := st.cache (st.start + tail + 1)
      let st2 := { st with
        cache := Function.update st.cache dst v,
        disk := Function.update st.disk dst v }
      let r := install_trans_go st2 recovering (tail + 1) fuel
      (r.1, LogEv.bwrite dst ::
        (if recovering then r.2 else LogEv.bunpin dst :: r.2))

/-- `install_trans(recovering)` from log.c. -/
def install_trans (st : CSt) (recovering : Bool) : CSt × List LogEv :=
  install_trans_go st recovering 0 st.lhn

/-- `commit` from log.c: nothing at all when `lh.n = 0`; otherwise
`write_log`, `write_head`, `install_trans(0)`, `lh.n = 0`, `write_head`. -/
def commit (st : CSt) : CSt × List LogEv :=
  if 0 < st.lhn then
    let r1 := write_log st
    let r2 := write_head r1.1
    let r3 := install_trans r2.1 false
    let st4 := { r3.1 with lhn := 0 }
    let r4 := write_head st4
    (r4.1, r1.2 ++ (r2.2 ++ (r3.2 ++ r4.2)))
  else (st, [])

theorem write_log_go_pres : ∀ (fuel : Nat) (st : CSt) (tail : Nat),
    (write_log_go st tail fuel).1.start = st.start ∧
    (write_log_go st tail fuel).1.lhn = st.lhn ∧
    (write_log_go st tail fuel).1.lhblock = st.lhblock ∧
    (write_log_go st tail fuel).1.diskHead = st.diskHead := by
  intro fuel
  induction fuel with
  | zero => intro st tail; exact ⟨rfl, rfl, rfl, rfl⟩
  | succ fuel ih =>
      intro st tail
      simp only [write_log_go]
      exact ih _ _

theorem write_log_go_trace : ∀ (fuel : Nat) (st : CSt) (tail : Nat),
    (write_log_go st tail fuel).2 =
      (List.range fuel).map (fun k => LogEv.bwrite (st.start + tail + k + 1)) := by
  intro fuel
  induction fuel with
  | zero => intro st tail; rfl
  | succ fuel ih =>
      intro st tail
      simp only [write_log_go]
      rw [List.range_succ_eq_map]
      rw [ih _ (tail + 1)]
      simp only [List.map_cons, List.map_map]
      congr 1
      apply List.map_congr_left
      intro a _
      simp only [Function.comp_apply, Nat.succ_eq_add_one]
      have e : st.start + (tail + 1) + a + 1 = st.start + tail + (a + 1) + 1 := by
        omega
      exact congrArg LogEv.bwrite e

theorem write_log_go_frame : ∀ (fuel : Nat) (st : CSt) (tail : Nat) (p : Nat),
    (∀ k, k < fuel → p ≠ st.start + tail + k + 1) →
    (write_log_go st tail fuel).1.cache p = st.cache p ∧
    (write_log_go st tail fuel).1.disk p = st.disk p := by
  intro fuel
  induction fuel with
  | zero => intro st tail p _; exact ⟨rfl, rfl⟩
  | succ fuel ih =>
      intro st tail p hp
      simp only [write_log_go]
      have h0 : p ≠ st.start + tail + 1 := hp 0 (by omega)
      have hrec := ih ({ st with
          cache := Function.update st.cache (st.start + tail + 1)
            (st.cache (st.lhblock tail)),
          disk := Function.update st.disk (st.start + tail + 1)
            (st.cache (st.lhblock tail)) }) (tail + 1) p
        (by
          intro k hk
          have := hp (k + 1) (by omega)
          intro heq
          have heq2 : p = st.start + (tail + 1) + k + 1 := heq
          omega)
      obtain ⟨hc, hd⟩ := hrec
      rw [hc, hd]
      constructor
      · exact Function.update_noteq h0 _ _
      · exact Function.update_noteq h0 _ _

theorem write_log_go_val : ∀ (fuel : Nat) (st : CSt) (tail : Nat),
    (∀ k j, k < fuel → j < fuel →
      st.lhblock (tail + k) ≠ st.start + tail + j + 1) →
    ∀ k, k < fuel →
      (write_log_go st tail fuel).1.cache (st.start + tail + k + 1) =
        st.cache (st.lhblock (tail + k)) ∧
      (write_log_go st tail fuel).1.disk (st.start + tail + k + 1) =
        st.cache (st.lhblock (tail + k)) := by
  intro fuel
  induction fuel with
  | zero => intro st tail _ k hk; omega
  | succ fuel ih =>
      intro st tail hdisj k hk
      simp only [write_log_go]
      cases k with
      | zero =>
          have hfr := write_log_go_frame fuel ({ st with
              cache := Function.update st.cache (st.start + tail + 1)
                (st.cache (st.lhblock tail)),
              disk := Function.update st.disk (st.start + tail + 1)
                (st.cache (st.lhblock tail)) }) (tail + 1)
            (st.start + tail + 1)
            (by
              intro k2 hk2
              intro heq
              have heq2 : st.start + tail + 1 = st.start + (tail + 1) + k2 + 1 := heq
              omega)
          obtain ⟨hc, hd⟩ := hfr
          constructor
          · show (write_log_go _ (tail + 1) fuel).1.cache (st.start + tail + 1) = _
            rw [hc]
            exact Function.update_same _ _ _
          · show (write_log_go _ (tail + 1) fuel).1.disk (st.start + tail + 1) = _
            rw [hd]
            exact Function.update_same _ _ _
      | succ k2 =>
          have hdisj2 : ∀ a b, a < fuel → b < fuel →
              ({ st with
                cache := Function.update st.cache (st.start + tail + 1)
                  (st.cache (st.lhblock tail)),
                disk := Function.update st.disk (st.start + tail + 1)
                  (st.cache (st.lhblock tail)) } : CSt).lhblock ((tail + 1) + a) ≠
              ({ st with
                cache := Function.update st.cache (st.start + tail + 1)
                  (st.cache (st.lhblock tail)),
                disk := Function.update st.disk (st.start + tail + 1)
                  (st.cache (st.lhblock tail)) } : CSt).start + (tail + 1) + b + 1 := by
            intro a b ha hb heq
            have heq2 : st.lhblock (tail + 1 + a) = st.start + (tail + 1) + b + 1 := heq
            have e1 : tail + 1 + a = tail + (a + 1) := by omega
            rw [e1] at heq2
            exact hdisj (a + 1) (b + 1) (by omega) (by omega) (by
              have e2 : st.start + tail + (b + 1) + 1 = st.start + (tail + 1) + b + 1 := by
                omega
              rw [e2]
              exact heq2)
          have hrec := ih _ (tail + 1) hdisj2 k2 (by omega)
          obtain ⟨hc, hd⟩ := hrec
          have e3 : st.start + (tail + 1) + k2 + 1 = st.start + tail + (k2 + 1) + 1 := by
            omega
          have e4 : tail + 1 + k2 = tail + (k2 + 1) := by omega
          rw [e3, e4] at hc hd
          constructor
          · rw [hc]
            exact Function.update_noteq
              (hdisj (k2 + 1) 0 (by omega) (by omega)) _ _
          · rw [hd]
            exact Function.update_noteq
              (hdisj (k2 + 1) 0 (by omega) (by omega)) _ _

theorem install_go_pres : ∀ (fuel : Nat) (st : CSt) (rec : Bool) (tail : Nat),
    (install_trans_go st rec tail fuel).1.start = st.start ∧
    (install_trans_go st rec tail fuel).1.lhn = st.lhn ∧
    (install_trans_go st rec tail fuel).1.lhblock = st.lhblock ∧
    (install_trans_go st rec tail fuel).1.diskHead = st.diskHead := by
  intro fuel
  induction fuel with
  | zero => intro st rec tail; exact ⟨rfl, rfl, rfl, rfl⟩
  | succ fuel ih =>
      intro st rec tail
      simp only [install_trans_go]
      exact ih _ _ _

theorem install_go_trace : ∀ (fuel : Nat) (st : CSt) (rec : Bool) (tail : Nat),
    (install_trans_go st rec tail fuel).2 =
      ((List.range fuel).map (fun k =>
        if rec then [LogEv.bwrite (st.lhblock (tail + k))]
        else [LogEv.bwrite (st.lhblock (tail + k)),
              LogEv.bunpin (st.lhblock (tail + k))])).flatten := by
  intro fuel
  induction fuel with
  | zero => intro st rec tail; rfl
  | succ fuel ih =>
      intro st rec tail
      simp only [install_trans_go]
      rw [List.range_succ_eq_map]
      rw [ih _ rec (tail + 1)]
      simp only [List.map_cons, List.map_map, List.flatten_cons]
      cases rec with
      | true =>
          simp only [eq_self_iff_true, if_true, List.singleton_append]
          congr 1
          congr 1
          apply List.map_congr_left
          intro a _
          simp only [Function.comp_apply, Nat.succ_eq_add_one]
          have e : tail + 1 + a = tail + (a + 1) := by omega
          rw [e]
      | false =>
          simp only [Bool.false_eq_true, if_false, List.cons_append,
            List.singleton_append, List.nil_append]
          congr 2
          congr 1
          apply List.map_congr_left
          intro a _
          simp only [Function.comp_apply, Nat.succ_eq_add_one]
          have e : tail + 1 + a = tail + (a + 1) := by omega
          rw [e]

theorem install_go_frame : ∀ (fuel : Nat) (st : CSt) (rec : Bool) (tail : Nat)
    (p : Nat), (∀ k, k < fuel → p ≠ st.lhblock (tail + k)) →
    (install_trans_go st rec tail fuel).1.cache p = st.cache p ∧
    (install_trans_go st rec tail fuel).1.disk p = st.disk p := by
  intro fuel
  induction fuel with
  | zero => intro st rec tail p _; exact ⟨rfl, rfl⟩
  | succ fuel ih =>
      intro st rec tail p hp
      simp only [install_trans_go]
      have h0 : p ≠ st.lhblock tail := by
        have := hp 0 (by omega)
        simpa using this
      have hrec := ih ({ st with
          cache := Function.update st.cache (st.lhblock tail)
            (st.cache (st.start + tail + 1)),
          disk := Function.update st.disk (st.lhblock tail)
            (st.cache (st.start + tail + 1)) }) rec (tail + 1) p
        (by
          intro k hk
          have h1 := hp (k + 1) (by omega)
          intro heq
          have heq2 : p = st.lhblock (tail + 1 + k) := heq
          have e : tail + 1 + k = tail + (k + 1) := by omega
          rw [e] at heq2
          exact h1 heq2)
      obtain ⟨hc, hd⟩ := hrec
      rw [hc, hd]
      constructor
      · exact Function.update_noteq h0 _ _
      · exact Function.update_noteq h0 _ _

theorem install_go_val : ∀ (fuel : Nat) (st : CSt) (rec : Bool) (tail : Nat),
    (∀ k j, k < fuel → j < fuel → st.lhblock (tail + k) = st.lhblock (tail + j) →
      k = j) →
    (∀ k j, k < fuel → j < fuel →
      st.lhblock (tail + k) ≠ st.start + tail + j + 1) →
    ∀ k, k < fuel →
      (install_trans_go st rec tail fuel).1.cache (st.lhblock (tail + k)) =
        st.cache (st.start + tail + k + 1) ∧
      (install_trans_go st rec tail fuel).1.disk (st.lhblock (tail + k)) =
        st.cache (st.start + tail + k + 1) := by
  intro fuel
  induction fuel with
  | zero => intro st rec tail _ _ k hk; omega
  | succ fuel ih =>
      intro st rec tail hinj hdisj k hk
      simp only [install_trans_go]
      cases k with
      | zero =>
          have hfr := install_go_frame fuel ({ st with
              cache := Function.update st.cache (st.lhblock tail)
                (st.cache (st.start + tail + 1)),
              disk := Function.update st.disk (st.lhblock tail)
                (st.cache (st.start + tail + 1)) }) rec (tail + 1)
            (st.lhblock tail)
            (by
              intro k2 hk2
              intro heq
              have heq2 : st.lhblock tail = st.lhblock (tail + 1 + k2) := heq
              have e : tail + 1 + k2 = tail + (k2 + 1) := by omega
              rw [e] at heq2
              have := hinj 0 (k2 + 1) (by omega) (by omega) (by
                simpa using heq2)
              omega)
          obtain ⟨hc, hd⟩ := hfr
          constructor
          · show (install_trans_go _ rec (tail + 1) fuel).1.cache (st.lhblock tail) = _
            rw [hc]
            exact Function.update_same _ _ _
          · show (install_trans_go _ rec (tail + 1) fuel).1.disk (st.lhblock tail) = _
            rw [hd]
            exact Function.update_same _ _ _
      | succ k2 =>
          have hinj2 : ∀ a b, a < fuel → b < fuel →
              st.lhblock ((tail + 1) + a) = st.lhblock ((tail + 1) + b) → a = b := by
            intro a b ha hb heq
            have e1 : tail + 1 + a = tail + (a + 1) := by omega
            have e2 : tail + 1 + b = tail + (b + 1) := by omega
            rw [e1, e2] at heq
            have := hinj (a + 1) (b + 1) (by omega) (by omega) heq
            omega
          have hdisj2 : ∀ a b, a < fuel → b < fuel →
              st.lhblock ((tail + 1) + a) ≠ st.start + (tail + 1) + b + 1 := by
            intro a b ha hb heq
            have e1 : tail + 1 + a = tail + (a + 1) := by omega
            rw [e1] at heq
            exact hdisj (a + 1) (b + 1) (by omega) (by omega) (by
              have e2 : st.start + tail + (b + 1) + 1 = st.start + (tail + 1) + b + 1 := by
                omega
              rw [e2]
              exact heq)
          have hrec := ih ({ st with
              cache := Function.update st.cache (st.lhblock tail)
                (st.cache (st.start + tail + 1)),
              disk := Function.update st.disk (st.lhblock tail)
                (st.cache (st.start + tail + 1)) }) rec (tail + 1) hinj2 hdisj2
            k2 (by omega)
          obtain ⟨hc, hd⟩ := hrec
          have e4 : tail + 1 + k2 = tail + (k2 + 1) := by omega
          rw [e4] at hc hd
          have hne3 : st.start + (tail + 1) + k2 + 1 ≠ st.lhblock tail := by
            have h5 : st.lhblock tail ≠ st.start + tail + (k2 + 1) + 1 := by
              simpa using hdisj 0 (k2 + 1) (by omega) (by omega)
            intro heq
            exact h5 (by omega)
          have hc2 : (install_trans_go { st with
              cache := Function.update st.cache (st.lhblock tail)
                (st.cache (st.start + tail + 1)),
              disk := Function.update st.disk (st.lhblock tail)
                (st.cache (st.start + tail + 1)) } rec (tail + 1) fuel).1.cache
              (st.lhblock (tail + (k2 + 1))) =
            Function.update st.cache (st.lhblock tail)
              (st.cache (st.start + tail + 1)) (st.start + (tail + 1) + k2 + 1) := hc
          have hd2 : (install_trans_go { st with
              cache := Function.update st.cache (st.lhblock tail)
                (st.cache (st.start + tail + 1)),
              disk := Function.update st.disk (st.lhblock tail)
                (st.cache (st.start + tail + 1)) } rec (tail + 1) fuel).1.disk
              (st.lhblock (tail + (k2 + 1))) =
            Function.update st.cache (st.lhblock tail)
              (st.cache (st.start + tail + 1)) (st.start + (tail + 1) + k2 + 1) := hd
          constructor
          · rw [hc2]
            rw [Function.update_noteq hne3 _ _]
            exact congrArg st.cache (by omega)
          · rw [hd2]
            rw [Function.update_noteq hne3 _ _]
            exact congrArg st.cache (by omega)

theorem commit_eq (st : CSt) (h0 : 0 < st.lhn) :
    commit st =
      ((write_head { (install_trans (write_head (write_log st).1).1 false).1 with
          lhn := 0 }).1,
        (write_log st).2 ++ ((write_head (write_log st).1).2 ++
          ((install_trans (write_head (write_log st).1).1 false).2 ++
            (write_head { (install_trans (write_head (write_log st).1).1 false).1 with
              lhn := 0 }).2))) := by
  simp only [commit, if_pos h0]

theorem commit_disk (st : CSt) (h0 : 0 < st.lhn)
    (hdisj : ∀ i j, i < st.lhn → j < st.lhn → st.lhblock i ≠ st.start + j + 1)
    (hinj : ∀ i j, i < st.lhn → j < st.lhn → st.lhblock i = st.lhblock j → i = j)
    (i : Nat) (hi : i < st.lhn) :
    (commit st).1.disk (st.start + i + 1) = st.cache (st.lhblock i) ∧
    (commit st).1.disk (st.lhblock i) = st.cache (st.lhblock i) := by
  have hp1 := write_log_go_pres st.lhn st 0
  have hs1start : (write_log st).1.start = st.start := hp1.1
  have hs1lhn : (write_log st).1.lhn = st.lhn := hp1.2.1
  have hs1block : (write_log st).1.lhblock = st.lhblock := hp1.2.2.1
  have hs2start : (write_head (write_log st).1).1.start = st.start := hs1start
  have hs2lhn : (write_head (write_log st).1).1.lhn = st.lhn := hs1lhn
  have hs2block : (write_head (write_log st).1).1.lhblock = st.lhblock := hs1block
  have hdisj0 : ∀ k j, k < st.lhn → j < st.lhn →
      st.lhblock (0 + k) ≠ st.start + 0 + j + 1 := by
    intro k j hk hj
    rw [Nat.zero_add, Nat.add_zero]
    exact hdisj k j hk hj
  have hval1 := write_log_go_val st.lhn st 0 hdisj0 i hi
  have hc1 : (write_log st).1.cache (st.start + i + 1) = st.cache (st.lhblock i) := by
    have h := hval1.1
    rw [Nat.zero_add, Nat.add_zero] at h
    exact h
  have hd1 : (write_log st).1.disk (st.start + i + 1) = st.cache (st.lhblock i) := by
    have h := hval1.2
    rw [Nat.zero_add, Nat.add_zero] at h
    exact h
  have hfr := install_go_frame ((write_head (write_log st).1).1.lhn)
      ((write_head (write_log st).1).1) false 0 (st.start + i + 1)
    (by
      intro k hk
      rw [hs2lhn] at hk
      rw [hs2block, Nat.zero_add]
      intro heq
      exact hdisj k i hk hi heq.symm)
  have hinj2 : ∀ k j, k < (write_head (write_log st).1).1.lhn →
      j < (write_head (write_log st).1).1.lhn →
      (write_head (write_log st).1).1.lhblock (0 + k) =
        (write_head (write_log st).1).1.lhblock (0 + j) → k = j := by
    intro k j hk hj
    rw [hs2lhn] at hk hj
    rw [hs2block, Nat.zero_add, Nat.zero_add]
    exact hinj k j hk hj
  have hdisj2 : ∀ k j, k < (write_head (write_log st).1).1.lhn →
      j < (write_head (write_log st).1).1.lhn →
      (write_head (write_log st).1).1.lhblock (0 + k) ≠
        (write_head (write_log st).1).1.start + 0 + j + 1 := by
    intro k j hk hj
    rw [hs2lhn] at hk hj
    rw [hs2block, Nat.zero_add, hs2start, Nat.add_zero]
    exact hdisj k j hk hj
  have hval3 := install_go_val ((write_head (write_log st).1).1.lhn)
      ((write_head (write_log st).1).1) false 0 hinj2 hdisj2 i
    (by rw [hs2lhn]; exact hi)
  have hd3 : (install_trans (write_head (write_log st).1).1 false).1.disk
      (st.lhblock i) = st.cache (st.lhblock i) := by
    have h := hval3.2
    rw [hs2block, Nat.zero_add, hs2start, Nat.add_zero] at h
    have h2 : (install_trans (write_head (write_log st).1).1 false).1.disk
        (st.lhblock i) = (write_log st).1.cache (st.start + i + 1) := h
    rw [hc1] at h2
    exact h2
  constructor
  · rw [commit_eq st h0]
    show (install_trans (write_head (write_log st).1).1 false).1.disk
      (st.start + i + 1) = st.cache (st.lhblock i)
    have h2 : (install_trans (write_head (write_log st).1).1 false).1.disk
        (st.start + i + 1) = (write_log st).1.disk (st.start + i + 1) := hfr.2
    rw [h2, hd1]
  · rw [commit_eq st h0]
    show (install_trans (write_head (write_log st).1).1 false).1.disk
      (st.lhblock i) = st.cache (st.lhblock i)
    exact hd3

/-- C1: the commit algorithm.  When `lh.n = 0`, `commit` performs no disk
writes and changes nothing.  When `lh.n > 0`, its event trace is exactly, in
order: a `bwrite` of log block `logstart+i+1` for each `i < lh.n`, the
`write_head` commit-point write of the header block, then for each entry a
`bwrite` of home block `lh.block[i]` followed by its `bunpin`
(`install_trans(recovering=0)`), then the final header write; afterwards
`lh.n = 0` and the on-disk header is cleared.  Moreover (for home blocks
disjoint from the log region and pairwise distinct) each log block
`logstart+i+1` and each home block `lh.block[i]` ends up holding the cached
payload of `lh.block[i]`. -/
theorem commit_spec (st : CSt) :
    (st.lhn = 0 → commit st = (st, [])) ∧
    (0 < st.lhn → (commit st).2 =
      ((List.range st.lhn).map (fun i => LogEv.bwrite (st.start + i + 1)) ++
        [LogEv.bwrite st.start] ++
        ((List.range st.lhn).map (fun i =>
          [LogEv.bwrite (st.lhblock i), LogEv.bunpin (st.lhblock i)])).flatten ++
        [LogEv.bwrite st.start])) ∧
    (commit st).1.lhn = 0 ∧
    (0 < st.lhn → (commit st).1.diskHead = (0, [])) ∧
    ((∀ i j, i < st.lhn → j < st.lhn → st.lhblock i ≠ st.start + j + 1) →
      (∀ i j, i < st.lhn → j < st.lhn → st.lhblock i = st.lhblock j → i = j) →
      ∀ i, i < st.lhn →
        (commit st).1.disk (st.start + i + 1) = st.cache (st.lhblock i) ∧
        (commit st).1.disk (st.lhblock i) = st.cache (st.lhblock i)) := by
  by_cases h0 : 0 < st.lhn
  · have hp1 := write_log_go_pres st.lhn st 0
    have hs1start : (write_log st).1.start = st.start := hp1.1
    have hs1lhn : (write_log st).1.lhn = st.lhn := hp1.2.1
    have hs1block : (write_log st).1.lhblock = st.lhblock := hp1.2.2.1
    have hs2start : (write_head (write_log st).1).1.start = st.start := hs1start
    have hs2lhn : (write_head (write_log st).1).1.lhn = st.lhn := hs1lhn
    have hs2block : (write_head (write_log st).1).1.lhblock = st.lhblock := hs1block
    refine ⟨fun hz => absurd hz (by omega), ?_, ?_, ?_, ?_⟩
    · intro _
      rw [commit_eq st h0]
      show (write_log st).2 ++ ((write_head (write_log st).1).2 ++
        ((install_trans (write_head (write_log st).1).1 false).2 ++
          (write_head { (install_trans (write_head (write_log st).1).1 false).1 with
            lhn := 0 }).2)) = _
      have ht1 : (write_log st).2 =
          (List.range st.lhn).map (fun k => LogEv.bwrite (st.start + k + 1)) := by
        show (write_log_go st 0 st.lhn).2 = _
        rw [write_log_go_trace]
        simp only [Nat.add_zero]
      have ht2 : (write_head (write_log st).1).2 = [LogEv.bwrite st.start] := by
        simp only [write_head]
        rw [hs1start]
      have ht3 : (install_trans (write_head (write_log st).1).1 false).2 =
          ((List.range st.lhn).map (fun k =>
            [LogEv.bwrite (st.lhblock k), LogEv.bunpin (st.lhblock k)])).flatten := by
        show (install_trans_go (write_head (write_log st).1).1 false 0
          ((write_head (write_log st).1).1.lhn)).2 = _
        rw [install_go_trace]
        simp only [Bool.false_eq_true, if_false]
        rw [hs2lhn, hs2block]
        simp only [Nat.zero_add]
      have ht4 : (write_head { (install_trans (write_head (write_log st).1).1
          false).1 with lhn := 0 }).2 = [LogEv.bwrite st.start] := by
        simp only [write_head]
        have h := (install_go_pres ((write_head (write_log st).1).1.lhn)
            ((write_head (write_log st).1).1) false 0).1
        rw [hs2start] at h
        have h2 : ({ (install_trans (write_head (write_log st).1).1 false).1 with
            lhn := 0 } : CSt).start = st.start := h
        exact congrArg (fun x => [LogEv.bwrite x]) h2
      rw [ht1, ht2, ht3, ht4]
      simp [List.append_assoc]
    · rw [commit_eq st h0]
      rfl
    · intro _
      rw [commit_eq st h0]
      rfl
    · intro hdisj hinj i hi
      exact commit_disk st h0 hdisj hinj i hi
  · have hz : st.lhn = 0 := by omega
    have hcz : commit st = (st, []) := by
      simp only [commit, if_neg h0]
    refine ⟨fun _ => hcz, fun hp => absurd hp h0, ?_, fun hp => absurd hp h0, ?_⟩
    · rw [hcz]
      exact hz
    · intro _ _ i hi
      exact absurd hi (by omega)

/-- Witness for C1 at a concrete one-entry log state: home block 100, log
start 2, cache payload of 100 is 1000; after commit both log block 3 and home
block 100 hold 1000 on disk. -/
theorem commit_spec_witness :
    (commit ⟨2, 1, fun _ => 100, fun b => b * 10, fun _ => 0, (5, [9])⟩).1.disk 3
        = 1000 ∧
    (commit ⟨2, 1, fun _ => 100, fun b => b * 10, fun _ => 0, (5, [9])⟩).1.disk 100
        = 1000 := by
  have h := (commit_spec ⟨2, 1, fun _ => 100, fun b => b * 10, fun _ => 0,
      (5, [9])⟩).2.2.2.2
    (by
      intro i j hi hj
      have hj2 : j < 1 := hj
      show (100 : Nat) ≠ 2 + j + 1
      omega)
    (by
      intro i j hi hj _
      have hi2 : i < 1 := hi
      have hj2 : j < 1 := hj
      omega)
    0 (by decide)
  exact ⟨h.1, h.2⟩

/-! ## Buffer cache: bget (bio.c) -/

/-- A cached buffer: `id` identifies the physical slot in `bcache.buf` (so
that "the same buffer" is expressible); the remaining fields are from
`struct buf`.  The sleep-lock is not represented: lock operations are erased
in this sequential embedding, only their order of acquisition is recorded by
`bget`. -/
structure Buf where
  id : Nat
  dev : Nat
  blockno : Nat
  valid : Bool
  refcnt : Nat
  lastuse : Nat
  deriving Repr, DecidableEq

/-- The zero-initialized dummy head `bcache.bufmap[i]` (its `lastuse` is 0 and
is never updated). -/
def dummyBuf : Buf := ⟨0, 0, 0, false, 0, 0⟩

/-- `BUFMAP_HASH(dev, blockno) = ((dev<<27)|blockno) % NBUFMAP_BUCKET` with
unsigned 32-bit wraparound. -/
def BUFMAP_HASH (dev blockno : Nat) : Nat :=
  Nat.lor ((dev <<< 27) % 2 ^ 32) (blockno % 2 ^ 32) % NBUFMAP_BUCKET

/-- One scan of a bucket list in `bget` (lines 94-100 and 105-113 of bio.c):
since the loop body has no `return` or `break`, every buffer matching
`(dev, blockno)` gets its `refcnt` incremented. -/
def incrMatches (bucket : List Buf) (dev blockno : Nat) : List Buf :=
  bucket.map fun b =>
    if b.dev = dev ∧ b.blockno = blockno then { b with refcnt := b.refcnt + 1 }
    else b

/-- The ids of the buffers whose sleep-lock `acquiresleep` is reached during
one scan of a bucket (each match, since the loop does not return). -/
def matchIds (bucket : List Buf) (dev blockno : Nat) : List Nat :=
  (bucket.filter fun b => b.dev == dev && b.blockno == blockno).map Buf.id

/-- The candidate-selection walk of one bucket in the `bget` eviction scan
(bio.c lines 118-136).  The C loop walks predecessors `b` (starting at the
dummy head) and tests
`b->next->refcnt == 0 && (!before_last || b->lastuse < before_last->next->lastuse)`:
note the comparison reads `b->lastuse`, the lastuse of the PREDECESSOR of the
would-be candidate (0 for the dummy head), against the lastuse of the current
best candidate `before_last->next`.  A candidate is recorded as
`(bucket index, position, buffer)`. -/
def bucketScan (i : Nat) (bucket : List Buf) (cand0 : Option (Nat × Nat × Buf)) :
    Option (Nat × Nat × Buf) :=
  (List.range bucket.length).foldl (fun cand c =>
    let b := bucket.getD c dummyBuf
    let plu := if c = 0 then 0 else (bucket.getD (c - 1) dummyBuf).lastuse
    match cand with
    | none => if b.refcnt = 0 then some (i, c, b) else none
    | some (bi, bc, cb) =>
        if b.refcnt = 0 ∧ plu < cb.lastuse then some (i, c, b)
        else some (bi, bc, cb))
    cand0

/-- The full eviction-candidate scan of `bget`: all buckets in index order. -/
def selectVictim (buckets : List (List Buf)) : Option (Nat × Nat × Buf) :=
  (List.range buckets.length).foldl
    (fun cand i => bucketScan i (buckets.getD i []) cand) none

/-- Result of `bget`: the returned buffer (`none` = panic "bget: no buffers"),
the updated buckets, and the ids of the buffers on which `acquiresleep` was
executed, in order. -/
structure BgetRes where
  ret : Option Buf
  buckets : List (List Buf)
  sleeps : List Nat
  deriving Repr, DecidableEq

/-- `bget(dev, blockno)` from bio.c, with lock acquire/release erased
(sequential semantics).  First scan of bucket `key`: each match gets
`refcnt++` and `acquiresleep`, and the loop runs on (the body has no
`return`).  Execution then falls through to the re-scan, which increments and
`acquiresleep`s each match again, and then to the eviction scan, which picks
a candidate via `selectVictim`, panics if there is none, otherwise moves it
to bucket `key` if needed (in place when it is already there), re-labels it
`(dev, blockno)` with `refcnt = 1`, `valid = 0`, and returns it. -/
def bget (buckets : List (List Buf)) (dev blockno : Nat) : BgetRes :=
  let key := BUFMAP_HASH dev blockno
  let bk0 := buckets.getD key []
  let s1 := matchIds bk0 dev blockno
  let buckets1 := buckets.set key (incrMatches bk0 dev blockno)
  let bk1 := buckets1.getD key []
  let s2 := matchIds bk1 dev blockno
  let buckets2 := buckets1.set key (incrMatches bk1 dev blockno)
  match selectVictim buckets2 with
  | none => { ret := none, buckets := buckets2, sleeps := s1 ++ s2 }
  | some (h, c, _) =>
      let bh := buckets2.getD h []
      let b := bh.getD c dummyBuf
      let b2 : Buf := ⟨b.id, dev, blockno, false, 1, b.lastuse⟩
      let buckets3 :=
        if h = key then
          buckets2.set key ((buckets2.getD key []).set c b2)
        else
          let removed := buckets2.set h (bh.eraseIdx c)
          removed.set key (b2 :: removed.getD key [])
      { ret := some b2, buckets := buckets3, sleeps := s1 ++ s2 ++ [b2.id] }

/-- C2 (failing evaluation): bucket 1 caches buffer id 1 with identity
`(0,1)` and `refcnt 1`, alongside an unrelated free buffer id 2.  The claim
says `bget(0,1)` returns buffer id 1 with `refcnt = 2` without entering the
eviction path and without touching any other buffer.  The code instead leaves
the hit buffer with `refcnt = 3` (both scans increment it, since the fast
path has no `return`), falls through to eviction, re-labels the free buffer
id 2 as `(0,1)` — a duplicate identity — and returns that freshly invalidated
buffer; `acquiresleep` runs on buffer 1 twice and then on buffer 2. -/
theorem bget_fast_path_falls_through :
    (bget [[], [⟨1, 0, 1, true, 1, 5⟩, ⟨2, 0, 14, true, 0, 4⟩],
        [], [], [], [], [], [], [], [], [], [], []] 0 1).ret =
      some ⟨2, 0, 1, false, 1, 4⟩ ∧
    (bget [[], [⟨1, 0, 1, true, 1, 5⟩, ⟨2, 0, 14, true, 0, 4⟩],
        [], [], [], [], [], [], [], [], [], [], []] 0 1).buckets =
      [[], [⟨1, 0, 1, true, 3, 5⟩, ⟨2, 0, 1, false, 1, 4⟩],
        [], [], [], [], [], [], [], [], [], [], []] ∧
    (bget [[], [⟨1, 0, 1, true, 1, 5⟩, ⟨2, 0, 14, true, 0, 4⟩],
        [], [], [], [], [], [], [], [], [], [], []] 0 1).sleeps = [1, 1, 2] := by
  decide

/-- C3 (failing evaluation): bucket 0 holds two eviction-eligible buffers,
id 1 with `lastuse 10` and id 2 with `lastuse 3`.  The minimum-`lastuse`
victim is id 2, but the selection condition compares `b->lastuse` (the
predecessor of the examined node) instead of `b->next->lastuse`, so the scan
keeps id 1 (its predecessor, the dummy head, has `lastuse 0`, and
`10 < 10` fails for id 2).  The second conjunct checks the panic half of the
claim: with every buffer at `refcnt > 0`, `bget` panics (returns none). -/
theorem bget_eviction_not_lru :
    selectVictim [[⟨1, 0, 0, false, 0, 10⟩, ⟨2, 0, 13, false, 0, 3⟩],
        [], [], [], [], [], [], [], [], [], [], [], []] =
      some (0, 0, ⟨1, 0, 0, false, 0, 10⟩) ∧
    (bget [[⟨1, 0, 0, true, 1, 10⟩],
        [], [], [], [], [], [], [], [], [], [], [], []] 0 5).ret = none := by
  decide

/-! ## Inode layer: bmap (fs.c) -/

/-- Events emitted by `bmap`: `alloc b` is a successful `balloc` returning
block `b` (its internal bitmap and `bzero` log writes happen inside `balloc`),
and `logw b` is a `log_write` that `bmap` itself performs on the buffer of
block `b` after storing a new address into it. -/
inductive FsEv where
  | alloc (bno : Nat)
  | logw (bno : Nat)
  deriving Repr, DecidableEq

/-- State acted on by `bmap`: the inode address array `ip->addrs`
(length `NDIRECT+2`), the disk image mapping a block number to its content
viewed as an array of `NINDIRECT` 32-bit addresses, the supply of free block
numbers that successive `balloc` calls will return, and the event trace. -/
structure FsSt where
  addrs : List Nat
  disk : Nat → List Nat
  supply : List Nat
  events : List FsEv

/-- `balloc(dev)` as seen from `bmap`: returns the next free block number
(panicking — `none` — when the disk is full), zeroes that block (`bzero`) and
records the allocation.  The bitmap flip and its `log_write` are internal. -/
def balloc (st : FsSt) : Option (Nat × FsSt) :=
  match st.supply with
  | [] => none
  | a :: rest =>
      some (a,
        { st with
          supply := rest,
          disk := Function.update st.disk a (List.replicate NINDIRECT 0),
          events := st.events ++ [FsEv.alloc a] })

/-- `bmap(ip, bn)` from fs.c: direct region, single-indirect region through
`ip->addrs[NDIRECT]`, doubly-indirect region through `ip->addrs[NDIRECT+1]`
with first level `bn / NINDIRECT` and second level `bn % NINDIRECT` (after
the two subtractions), allocating any zero address on the path via `balloc`
and `log_write`-ing each indirect block it stores a new address into;
panics (`none`) when `bn` is beyond all three regions. -/
def bmap (st : FsSt) (bn : Nat) : Option (Nat × FsSt) :=
  if bn < NDIRECT then
    let addr := st.addrs.getD bn 0
    if addr = 0 then
      match balloc st with
      | none => none
      | some (a, st2) => some (a, { st2 with addrs := st2.addrs.set bn a })
    else some (addr, st)
  else
    let bn1 := bn - NDIRECT
    if bn1 < NINDIRECT then
      let r1 : Option (Nat × FsSt) :=
        let addr := st.addrs.getD NDIRECT 0
        if addr = 0 then
          match balloc st with
          | none => none
          | some (a, st2) => some (a, { st2 with addrs := st2.addrs.set NDIRECT a })
        else some (addr, st)
      match r1 with
      | none => none
      | some (root, st2) =>
          let addr := (st2.disk root).getD bn1 0
          if addr = 0 then
            match balloc st2 with
            | none => none
            | some (anew, st3) =>
                some (anew, { st3 with
                  disk := Function.update st3.disk root
                    ((st3.disk root).set bn1 anew),
                  events := st3.events ++ [FsEv.logw root] })
          else some (addr, st2)
    else
      let bn2 := bn1 - NINDIRECT
      if bn2 < NINDIRECT * NINDIRECT then
        let r1 : Option (Nat × FsSt) :=
          let addr := st.addrs.getD (NDIRECT + 1) 0
          if addr = 0 then
            match balloc st with
            | none => none
            | some (a, st2) =>
                some (a, { st2 with addrs := st2.addrs.set (NDIRECT + 1) a })
          else some (addr, st)
        match r1 with
        | none => none
        | some (droot, st2) =>
            let level_1 := bn2 / NINDIRECT
            let level_2 := bn2 % NINDIRECT
            let r2 : Option (Nat × FsSt) :=
              let addr := (st2.disk droot).getD level_1 0
              if addr = 0 then
                match balloc st2 with
                | none => none
                | some (a, st3) =>
                    some (a, { st3 with
                      disk := Function.update st3.disk droot
                        ((st3.disk droot).set level_1 a),
                      events := st3.events ++ [FsEv.logw droot] })
              else some (addr, st2)
            match r2 with
            | none => none
            | some (l1blk, st3) =>
                let addr := (st3.disk l1blk).getD level_2 0
                if addr = 0 then
                  match balloc st3 with
                  | none => none
                  | some (a, st4) =>
                      some (a, { st4 with
                        disk := Function.update st4.disk l1blk
                          ((st4.disk l1blk).set level_2 a),
                        events := st4.events ++ [FsEv.logw l1blk] })
                else some (addr, st3)
      else none

theorem getD_replicate_zero : ∀ (n i : Nat), (List.replicate n (0 : Nat)).getD i 0 = 0 := by
  intro n
  induction n with
  | zero => intro i; simp [List.getD]
  | succ n ih =>
      intro i
      cases i with
      | zero => simp [List.replicate]
      | succ j => simpa [List.replicate] using ih j

/-- C7: `bmap` region behaviour.  (1) `bn < NDIRECT` with a nonzero direct
address returns `ip.addrs[bn]` unchanged; (2) a zero direct address is
allocated and stored.  (3) In `[NDIRECT, NDIRECT+NINDIRECT)` with nonzero
root and slot, returns slot `bn-NDIRECT` of the block at `ip.addrs[NDIRECT]`;
(4) a zero slot is allocated, stored into the indirect block, and that block
is `log_write`-n; (5) a zero root is allocated first (with no `log_write` for
the root pointer itself, which lives in the inode), and the slot of the fresh
zeroed block is then also allocated, with `log_write` on the new root.
(6) In the doubly-indirect region the lookup goes through
`ip.addrs[NDIRECT+1]` with first level `(bn-NDIRECT-NINDIRECT)/NINDIRECT` and
second level the remainder; (7) a zero second-level entry is allocated with
`log_write` on the first-level block; (8) a zero first-level entry triggers
the cascade: allocate it, `log_write` the root block, then allocate the
second-level entry and `log_write` the fresh first-level block.  (9) A zero
doubly-indirect root triggers the full cascade: allocate the root (stored in
the inode address array, so with no `log_write` for the root pointer itself),
then — the fresh root being zeroed — allocate the first-level block and
`log_write` the root, then — the fresh first-level block being zeroed —
allocate the second-level block and `log_write` the first-level block.
(10) `bn` at or beyond `NDIRECT + NINDIRECT + NINDIRECT*NINDIRECT`
panics. -/
theorem bmap_regions (st : FsSt) (bn : Nat) :
    (bn < NDIRECT → st.addrs.getD bn 0 ≠ 0 →
      bmap st bn = some (st.addrs.getD bn 0, st)) ∧
    (bn < NDIRECT → st.addrs.getD bn 0 = 0 →
      ∀ a rest, st.supply = a :: rest →
        bmap st bn = some (a,
          ⟨st.addrs.set bn a,
           Function.update st.disk a (List.replicate NINDIRECT 0),
           rest, st.events ++ [FsEv.alloc a]⟩)) ∧
    (NDIRECT ≤ bn → bn < NDIRECT + NINDIRECT →
      st.addrs.getD NDIRECT 0 ≠ 0 →
      (st.disk (st.addrs.getD NDIRECT 0)).getD (bn - NDIRECT) 0 ≠ 0 →
      bmap st bn =
        some ((st.disk (st.addrs.getD NDIRECT 0)).getD (bn - NDIRECT) 0, st)) ∧
    (NDIRECT ≤ bn → bn < NDIRECT + NINDIRECT →
      st.addrs.getD NDIRECT 0 ≠ 0 →
      (st.disk (st.addrs.getD NDIRECT 0)).getD (bn - NDIRECT) 0 = 0 →
      ∀ a rest, st.supply = a :: rest →
        bmap st bn = some (a,
          ⟨st.addrs,
           Function.update (Function.update st.disk a (List.replicate NINDIRECT 0))
             (st.addrs.getD NDIRECT 0)
             ((Function.update st.disk a (List.replicate NINDIRECT 0)
                (st.addrs.getD NDIRECT 0)).set (bn - NDIRECT) a),
           rest,
           st.events ++ [FsEv.alloc a] ++ [FsEv.logw (st.addrs.getD NDIRECT 0)]⟩)) ∧
    (NDIRECT ≤ bn → bn < NDIRECT + NINDIRECT →
      st.addrs.getD NDIRECT 0 = 0 →
      ∀ a1 a2 rest, st.supply = a1 :: a2 :: rest →
        bmap st bn = some (a2,
          ⟨st.addrs.set NDIRECT a1,
           Function.update
             (Function.update (Function.update st.disk a1 (List.replicate NINDIRECT 0))
               a2 (List.replicate NINDIRECT 0))
             a1
             ((Function.update (Function.update st.disk a1 (List.replicate NINDIRECT 0))
               a2 (List.replicate NINDIRECT 0) a1).set (bn - NDIRECT) a2),
           rest,
           st.events ++ [FsEv.alloc a1] ++ [FsEv.alloc a2] ++ [FsEv.logw a1]⟩)) ∧
    (NDIRECT + NINDIRECT ≤ bn → bn < NDIRECT + NINDIRECT + NINDIRECT * NINDIRECT →
      st.addrs.getD (NDIRECT + 1) 0 ≠ 0 →
      (st.disk (st.addrs.getD (NDIRECT + 1) 0)).getD
        ((bn - NDIRECT - NINDIRECT) / NINDIRECT) 0 ≠ 0 →
      (st.disk ((st.disk (st.addrs.getD (NDIRECT + 1) 0)).getD
        ((bn - NDIRECT - NINDIRECT) / NINDIRECT) 0)).getD
        ((bn - NDIRECT - NINDIRECT) % NINDIRECT) 0 ≠ 0 →
      bmap st bn =
        some ((st.disk ((st.disk (st.addrs.getD (NDIRECT + 1) 0)).getD
          ((bn - NDIRECT - NINDIRECT) / NINDIRECT) 0)).getD
          ((bn - NDIRECT - NINDIRECT) % NINDIRECT) 0, st)) ∧
    (NDIRECT + NINDIRECT ≤ bn → bn < NDIRECT + NINDIRECT + NINDIRECT * NINDIRECT →
      st.addrs.getD (NDIRECT + 1) 0 ≠ 0 →
      (st.disk (st.addrs.getD (NDIRECT + 1) 0)).getD
        ((bn - NDIRECT - NINDIRECT) / NINDIRECT) 0 ≠ 0 →
      (st.disk ((st.disk (st.addrs.getD (NDIRECT + 1) 0)).getD
        ((bn - NDIRECT - NINDIRECT) / NINDIRECT) 0)).getD
        ((bn - NDIRECT - NINDIRECT) % NINDIRECT) 0 = 0 →
      ∀ a rest, st.supply = a :: rest →
        bmap st bn = some (a,
          ⟨st.addrs,
           Function.update (Function.update st.disk a (List.replicate NINDIRECT 0))
             ((st.disk (st.addrs.getD (NDIRECT + 1) 0)).getD
               ((bn - NDIRECT - NINDIRECT) / NINDIRECT) 0)
             ((Function.update st.disk a (List.replicate NINDIRECT 0)
                ((st.disk (st.addrs.getD (NDIRECT + 1) 0)).getD
                  ((bn - NDIRECT - NINDIRECT) / NINDIRECT) 0)).set
               ((bn - NDIRECT - NINDIRECT) % NINDIRECT) a),
           rest,
           st.events ++ [FsEv.alloc a] ++
             [FsEv.logw ((st.disk (st.addrs.getD (NDIRECT + 1) 0)).getD
               ((bn - NDIRECT - NINDIRECT) / NINDIRECT) 0)]⟩)) ∧
    (NDIRECT + NINDIRECT ≤ bn → bn < NDIRECT + NINDIRECT + NINDIRECT * NINDIRECT →
      st.addrs.getD (NDIRECT + 1) 0 ≠ 0 →
      (st.disk (st.addrs.getD (NDIRECT + 1) 0)).getD
        ((bn - NDIRECT - NINDIRECT) / NINDIRECT) 0 = 0 →
      ∀ a1 a2 rest, st.supply = a1 :: a2 :: rest →
        a1 ≠ st.addrs.getD (NDIRECT + 1) 0 →
        bmap st bn = some (a2,
          ⟨st.addrs,
           Function.update
             (Function.update
               (Function.update
                 (Function.update st.disk a1 (List.replicate NINDIRECT 0))
                 (st.addrs.getD (NDIRECT + 1) 0)
                 ((Function.update st.disk a1 (List.replicate NINDIRECT 0)
                    (st.addrs.getD (NDIRECT + 1) 0)).set
                   ((bn - NDIRECT - NINDIRECT) / NINDIRECT) a1))
               a2 (List.replicate NINDIRECT 0))
             a1
             ((Function.update
                 (Function.update
                   (Function.update st.disk a1 (List.replicate NINDIRECT 0))
                   (st.addrs.getD (NDIRECT + 1) 0)
                   ((Function.update st.disk a1 (List.replicate NINDIRECT 0)
                      (st.addrs.getD (NDIRECT + 1) 0)).set
                     ((bn - NDIRECT - NINDIRECT) / NINDIRECT) a1))
                 a2 (List.replicate NINDIRECT 0) a1).set
               ((bn - NDIRECT - NINDIRECT) % NINDIRECT) a2),
           rest,
           st.events ++ [FsEv.alloc a1] ++
             [FsEv.logw (st.addrs.getD (NDIRECT + 1) 0)] ++
             [FsEv.alloc a2] ++ [FsEv.logw a1]⟩)) ∧
    (NDIRECT + NINDIRECT ≤ bn → bn < NDIRECT + NINDIRECT + NINDIRECT * NINDIRECT →
      st.addrs.getD (NDIRECT + 1) 0 = 0 →
      ∀ a1 a2 a3 rest, st.supply = a1 :: a2 :: a3 :: rest →
        a1 ≠ a2 →
        bmap st bn = some (a3,
          ⟨st.addrs.set (NDIRECT + 1) a1,
           Function.update
             (Function.update
               (Function.update
                 (Function.update
                   (Function.update st.disk a1 (List.replicate NINDIRECT 0))
                   a2 (List.replicate NINDIRECT 0))
                 a1
                 ((Function.update
                     (Function.update st.disk a1 (List.replicate NINDIRECT 0))
                     a2 (List.replicate NINDIRECT 0) a1).set
                   ((bn - NDIRECT - NINDIRECT) / NINDIRECT) a2))
               a3 (List.replicate NINDIRECT 0))
             a2
             ((Function.update
                 (Function.update
                   (Function.update
                     (Function.update st.disk a1 (List.replicate NINDIRECT 0))
                     a2 (List.replicate NINDIRECT 0))
                   a1
                   ((Function.update
                       (Function.update st.disk a1 (List.replicate NINDIRECT 0))
                       a2 (List.replicate NINDIRECT 0) a1).set
                     ((bn - NDIRECT - NINDIRECT) / NINDIRECT) a2))
                 a3 (List.replicate NINDIRECT 0) a2).set
               ((bn - NDIRECT - NINDIRECT) % NINDIRECT) a3),
           rest,
           st.events ++ [FsEv.alloc a1] ++ [FsEv.alloc a2] ++ [FsEv.logw a1] ++
             [FsEv.alloc a3] ++ [FsEv.logw a2]⟩)) ∧
    (NDIRECT + NINDIRECT + NINDIRECT * NINDIRECT ≤ bn → bmap st bn = none) := by
  refine ⟨?_, ?_, ?_, ?_, ?_, ?_, ?_, ?_, ?_, ?_⟩
  · intro h1 h2
    simp only [List.getD_eq_getElem?_getD] at *
    simp [bmap, h1, h2]
  · intro h1 h2 a rest hsup
    simp only [List.getD_eq_getElem?_getD] at *
    simp [bmap, balloc, h1, h2, hsup]
  · intro hge hlt hroot hslot
    simp only [List.getD_eq_getElem?_getD] at *
    have h1 : ¬ bn < NDIRECT := by omega
    have h2 : bn - NDIRECT < NINDIRECT := by
      have : (NINDIRECT : Nat) = 256 := by decide
      omega
    simp [bmap, h1, h2, hroot, hslot]
  · intro hge hlt hroot hslot a rest hsup
    simp only [List.getD_eq_getElem?_getD] at *
    have h1 : ¬ bn < NDIRECT := by omega
    have h2 : bn - NDIRECT < NINDIRECT := by
      have : (NINDIRECT : Nat) = 256 := by decide
      omega
    simp [bmap, balloc, h1, h2, hroot, hslot, hsup]
    rw [List.getD_eq_getElem?_getD]
  · intro hge hlt hroot a1 a2 rest hsup
    simp only [List.getD_eq_getElem?_getD] at *
    have h1 : ¬ bn < NDIRECT := by omega
    have h2 : bn - NDIRECT < NINDIRECT := by
      have : (NINDIRECT : Nat) = 256 := by decide
      omega
    simp [bmap, balloc, h1, h2, hroot, hsup, getD_replicate_zero]
  · intro hge hlt hroot hl1 hl2
    simp only [List.getD_eq_getElem?_getD] at *
    have h1 : ¬ bn < NDIRECT := by omega
    have h2 : ¬ bn - NDIRECT < NINDIRECT := by
      have : (NINDIRECT : Nat) = 256 := by decide
      omega
    have h3 : bn - NDIRECT - NINDIRECT < NINDIRECT * NINDIRECT := by
      have : (NINDIRECT : Nat) = 256 := by decide
      omega
    simp [bmap, h1, h2, h3, hroot, hl1, hl2]
  · intro hge hlt hroot hl1 hl2 a rest hsup
    simp only [List.getD_eq_getElem?_getD] at *
    have h1 : ¬ bn < NDIRECT := by omega
    have h2 : ¬ bn - NDIRECT < NINDIRECT := by
      have : (NINDIRECT : Nat) = 256 := by decide
      omega
    have h3 : bn - NDIRECT - NINDIRECT < NINDIRECT * NINDIRECT := by
      have : (NINDIRECT : Nat) = 256 := by decide
      omega
    simp [bmap, balloc, h1, h2, h3, hroot, hl1, hl2, hsup]
    rw [List.getD_eq_getElem?_getD, List.getD_eq_getElem?_getD]
  · intro hge hlt hroot hl1 a1 a2 rest hsup hne
    simp only [List.getD_eq_getElem?_getD] at *
    have h1 : ¬ bn < NDIRECT := by omega
    have h2 : ¬ bn - NDIRECT < NINDIRECT := by
      have : (NINDIRECT : Nat) = 256 := by decide
      omega
    have h3 : bn - NDIRECT - NINDIRECT < NINDIRECT * NINDIRECT := by
      have : (NINDIRECT : Nat) = 256 := by decide
      omega
    simp [bmap, balloc, h1, h2, h3, hroot, hl1, hsup,
      Function.update_noteq hne, getD_replicate_zero]
    rw [List.getD_eq_getElem?_getD]
  · intro hge hlt hroot a1 a2 a3 rest hsup hne12
    simp only [List.getD_eq_getElem?_getD] at *
    have h1 : ¬ bn < NDIRECT := by omega
    have h2 : ¬ bn - NDIRECT < NINDIRECT := by
      have : (NINDIRECT : Nat) = 256 := by decide
      omega
    have h3 : bn - NDIRECT - NINDIRECT < NINDIRECT * NINDIRECT := by
      have : (NINDIRECT : Nat) = 256 := by decide
      omega
    simp [bmap, balloc, h1, h2, h3, hroot, hsup,
      Function.update_noteq hne12, Function.update_noteq (Ne.symm hne12),
      getD_replicate_zero]
  · intro hge
    have h1 : ¬ bn < NDIRECT := by omega
    have h2 : ¬ bn - NDIRECT < NINDIRECT := by
      have : (NINDIRECT : Nat) = 256 := by decide
      omega
    have h3 : ¬ bn - NDIRECT - NINDIRECT < NINDIRECT * NINDIRECT := by
      have : (NINDIRECT : Nat) = 256 := by decide
      omega
    simp [bmap, h1, h2, h3]

/-- Witness for C7: a direct-region read on a concrete inode state. -/
theorem bmap_regions_witness :
    bmap ⟨[5, 0, 0, 0, 0, 0, 0, 0, 0, 0, 0, 7, 9], fun _ => [], [100, 101], []⟩ 0 =
      some (5, ⟨[5, 0, 0, 0, 0, 0, 0, 0, 0, 0, 0, 7, 9], fun _ => [], [100, 101], []⟩) :=
  (bmap_regions ⟨[5, 0, 0, 0, 0, 0, 0, 0, 0, 0, 0, 7, 9], fun _ => [], [100, 101], []⟩
    0).1 (by decide) (by decide)

/-! ## Inode layer: bfree, itrunc, iput (fs.c) -/

/-- In-memory inode fields used by `iput`/`itrunc`: `itype` is `ip->type`. -/
structure InodeSt where
  addrs : List Nat
  size : Nat
  itype : Nat
  nlink : Nat
  valid : Bool
  ref : Nat
  deriving Repr, DecidableEq

/-- State acted on by `iput`: the block bitmap (`bm b = true` iff block `b`
is marked allocated), a read-only view `ind` of block contents as address
arrays (itrunc only reads indirect blocks, and `bfree` only flips bitmap
bits, so contents are fixed), the cached inode, and the on-disk inode fields
maintained write-through by `iupdate`. -/
structure IFs where
  bm : Nat → Bool
  ind : Nat → List Nat
  ip : InodeSt
  dtype : Nat
  dsize : Nat

/-- `bfree(dev, b)` from fs.c: panics ("freeing free block") when the bit is
already clear, otherwise clears it (via `log_write` of the bitmap block). -/
def bfree (bm : Nat → Bool) (b : Nat) : Option (Nat → Bool) :=
  if bm b = false then none
  else some (Function.update bm b false)

/-- Sequential `bfree` of a list of block numbers, the shape of every loop in
`itrunc`. -/
def bfreeList : (Nat → Bool) → List Nat → Option (Nat → Bool)
  | bm, [] => some bm
  | bm, b :: l =>
      match bfree bm b with
      | none => none
      | some bm2 => bfreeList bm2 l

/-- The doubly-indirect loop of `itrunc`: for each nonzero first-level entry
`j`, free every nonzero second-level entry of block `j`, then free `j`
itself. -/
def freeDoubleEntries : (Nat → Bool) → (Nat → List Nat) → List Nat →
    Option (Nat → Bool)
  | bm, _, [] => some bm
  | bm, ind, j :: rest =>
      if j = 0 then freeDoubleEntries bm ind rest
      else
        match bfreeList bm (((ind j).take NINDIRECT).filter (fun x => x != 0)) with
        | none => none
        | some bm2 =>
            match bfree bm2 j with
            | none => none
            | some bm3 => freeDoubleEntries bm3 ind rest

/-- `itrunc(ip)` from fs.c: free all nonzero direct blocks; if the indirect
root is nonzero, free its nonzero entries and then the root; if the
doubly-indirect root is nonzero, run the two-level loop and then free the
root; zero the address array, set `size = 0`, and `iupdate` (write-through of
`type` and `size` to the on-disk inode). -/
def itrunc (st : IFs) : Option IFs :=
  match bfreeList st.bm ((st.ip.addrs.take NDIRECT).filter (fun x => x != 0)) with
  | none => none
  | some bm1 =>
      let root1 := st.ip.addrs.getD NDIRECT 0
      let r2 : Option (Nat → Bool) :=
        if root1 = 0 then some bm1
        else
          match bfreeList bm1
              (((st.ind root1).take NINDIRECT).filter (fun x => x != 0)) with
          | none => none
          | some bm2 => bfree bm2 root1
      match r2 with
      | none => none
      | some bm2 =>
          let root2 := st.ip.addrs.getD (NDIRECT + 1) 0
          let r3 : Option (Nat → Bool) :=
            if root2 = 0 then some bm2
            else
              match freeDoubleEntries bm2 st.ind ((st.ind root2).take NINDIRECT) with
              | none => none
              | some bm3 => bfree bm3 root2
          match r3 with
          | none => none
          | some bm3 =>
              some { st with
                bm := bm3,
                ip := { st.ip with
                        addrs := List.replicate (NDIRECT + 2) 0,
                        size := 0 },
                dtype := st.ip.itype,
                dsize := 0 }

/-- `iput(ip)` from fs.c: when `ref == 1 && valid && nlink == 0`, destroy the
inode — `itrunc`, set `type = 0`, `iupdate`, clear `valid` — and in every
case decrement `ref`. -/
def iput (st : IFs) : Option IFs :=
  if st.ip.ref = 1 ∧ st.ip.valid = true ∧ st.ip.nlink = 0 then
    match itrunc st with
    | none => none
    | some st2 =>
        some { st2 with
          ip := { st2.ip with
                  itype := 0,
                  valid := false,
                  ref := st2.ip.ref - 1 },
          dtype := 0,
          dsize := st2.ip.size }
  else
    some { st with ip := { st.ip with ref := st.ip.ref - 1 } }

/-- The second-level and first-level blocks reached from a list of
first-level entries, in the order `itrunc` frees them. -/
def doubleRefs (ind : Nat → List Nat) : List Nat → List Nat
  | [] => []
  | j :: rest =>
      (if j = 0 then []
       else ((ind j).take NINDIRECT).filter (fun x => x != 0) ++ [j]) ++
      doubleRefs ind rest

/-- Every block number referenced through the address array of the inode of
`st`: nonzero direct blocks, then the entries of the indirect block and the
indirect root, then all second-level entries, first-level entries and the
doubly-indirect root, in the order `itrunc` frees them. -/
def refBlocks (st : IFs) : List Nat :=
  (st.ip.addrs.take NDIRECT).filter (fun x => x != 0) ++
  ((if st.ip.addrs.getD NDIRECT 0 = 0 then []
    else ((st.ind (st.ip.addrs.getD NDIRECT 0)).take NINDIRECT).filter
        (fun x => x != 0) ++ [st.ip.addrs.getD NDIRECT 0]) ++
   (if st.ip.addrs.getD (NDIRECT + 1) 0 = 0 then []
    else doubleRefs st.ind
        ((st.ind (st.ip.addrs.getD (NDIRECT + 1) 0)).take NINDIRECT) ++
      [st.ip.addrs.getD (NDIRECT + 1) 0]))

theorem bfreeList_spec : ∀ (l : List Nat) (bm : Nat → Bool),
    l.Nodup → (∀ b ∈ l, bm b = true) →
    ∃ bm2, bfreeList bm l = some bm2 ∧
      (∀ b ∈ l, bm2 b = false) ∧ (∀ b, b ∉ l → bm2 b = bm b) := by
  intro l
  induction l with
  | nil =>
      intro bm _ _
      exact ⟨bm, rfl, by simp, fun b _ => rfl⟩
  | cons a t ih =>
      intro bm hnd hall
      have ha : bm a = true := hall a (List.mem_cons_self a t)
      have hfree : bfree bm a = some (Function.update bm a false) := by
        simp [bfree, ha]
      have hna : a ∉ t := (List.nodup_cons.mp hnd).1
      have hnd2 : t.Nodup := (List.nodup_cons.mp hnd).2
      have hall2 : ∀ b ∈ t, Function.update bm a false b = true := by
        intro b hb
        have hba : b ≠ a := by
          intro he
          subst he
          exact hna hb
        rw [Function.update_noteq hba]
        exact hall b (List.mem_cons_of_mem a hb)
      obtain ⟨bm2, heq, hzero, hpres⟩ := ih (Function.update bm a false) hnd2 hall2
      refine ⟨bm2, ?_, ?_, ?_⟩
      · simp [bfreeList, hfree, heq]
      · intro b hb
        cases List.mem_cons.mp hb with
        | inl he =>
            subst he
            rw [hpres b hna, Function.update_same]
        | inr hm => exact hzero b hm
      · intro b hnb
        have h1 : b ∉ t := fun hm => hnb (List.mem_cons_of_mem a hm)
        have h2 : b ≠ a := by
          intro he
          subst he
          exact hnb (List.mem_cons_self b t)
        rw [hpres b h1, Function.update_noteq h2]

theorem bfreeList_append : ∀ (x y : List Nat) (bm : Nat → Bool),
    bfreeList bm (x ++ y) =
      match bfreeList bm x with
      | none => none
      | some bm2 => bfreeList bm2 y := by
  intro x
  induction x with
  | nil => intro y bm; rfl
  | cons a t ih =>
      intro y bm
      simp only [List.cons_append, bfreeList]
      cases bfree bm a with
      | none => rfl
      | some bm2 => exact ih y bm2

theorem bfreeList_single (bm : Nat → Bool) (b : Nat) :
    bfreeList bm [b] = bfree bm b := by
  simp only [bfreeList]
  cases bfree bm b with
  | none => rfl
  | some bm2 => rfl

theorem freeDoubleEntries_eq : ∀ (l : List Nat) (bm : Nat → Bool)
    (ind : Nat → List Nat),
    freeDoubleEntries bm ind l = bfreeList bm (doubleRefs ind l) := by
  intro l
  induction l with
  | nil => intro bm ind; rfl
  | cons j rest ih =>
      intro bm ind
      by_cases hj : j = 0
      · simp [freeDoubleEntries, doubleRefs, hj, ih]
      · simp only [freeDoubleEntries, doubleRefs, if_neg hj]
        rw [List.append_assoc, bfreeList_append]
        cases hc : bfreeList bm (((ind j).take NINDIRECT).filter
            (fun x => x != 0)) with
        | none => rfl
        | some bm2 =>
            rw [List.singleton_append]
            simp only [bfreeList]
            cases bfree bm2 j with
            | none => rfl
            | some bm3 => exact ih bm3 ind

theorem itrunc_eq (st : IFs) :
    itrunc st =
      match bfreeList st.bm (refBlocks st) with
      | none => none
      | some bm3 =>
          some { st with
            bm := bm3,
            ip := { st.ip with
                    addrs := List.replicate (NDIRECT + 2) 0,
                    size := 0 },
            dtype := st.ip.itype,
            dsize := 0 } := by
  simp only [itrunc, refBlocks, bfreeList_append]
  cases h1 : bfreeList st.bm
      ((st.ip.addrs.take NDIRECT).filter (fun x => x != 0)) with
  | none => rfl
  | some bm1 =>
      by_cases hr1 : st.ip.addrs.getD NDIRECT 0 = 0
      · simp only [if_pos hr1, bfreeList]
        by_cases hr2 : st.ip.addrs.getD (NDIRECT + 1) 0 = 0
        · simp only [if_pos hr2, bfreeList]
        · simp only [if_neg hr2, freeDoubleEntries_eq, bfreeList_append]
          cases h3 : bfreeList bm1 (doubleRefs st.ind
              ((st.ind (st.ip.addrs.getD (NDIRECT + 1) 0)).take NINDIRECT)) with
          | none => rfl
          | some bm3 =>
              simp only [bfreeList_single]
      · simp only [if_neg hr1, bfreeList_append]
        cases h2 : bfreeList bm1
            (((st.ind (st.ip.addrs.getD NDIRECT 0)).take NINDIRECT).filter
              (fun x => x != 0)) with
        | none => rfl
        | some bm2 =>
            simp only [bfreeList_single]
            cases bfree bm2 (st.ip.addrs.getD NDIRECT 0) with
            | none => rfl
            | some bm2b =>

                by_cases hr2 : st.ip.addrs.getD (NDIRECT + 1) 0 = 0
                · simp only [if_pos hr2, bfreeList]
                · simp only [if_neg hr2, freeDoubleEntries_eq, bfreeList_append]
                  cases h3 : bfreeList bm2b (doubleRefs st.ind
                      ((st.ind (st.ip.addrs.getD (NDIRECT + 1) 0)).take
                        NINDIRECT)) with
                  | none => rfl
                  | some bm3 =>
                      simp only [bfreeList_single]

/-- C6: inode destruction.  For an inode with `ref == 1`, `valid` set and
`nlink == 0` (and a well-formed on-disk state: the blocks referenced through
its address array are pairwise distinct and all marked allocated), `iput`
succeeds and afterwards every data block, indirect block and doubly-indirect
block previously referenced through the address array has its bitmap bit
cleared (and no other bit changes), the in-memory and on-disk sizes are 0,
the on-disk type is 0, and the cache slot ends with `valid = 0` and
`ref = 0`. -/
theorem iput_destroys (st : IFs)
    (href : st.ip.ref = 1) (hval : st.ip.valid = true) (hnl : st.ip.nlink = 0)
    (hnd : (refBlocks st).Nodup)
    (hall : ∀ b ∈ refBlocks st, st.bm b = true) :
    ∃ st2, iput st = some st2 ∧
      (∀ b ∈ refBlocks st, st2.bm b = false) ∧
      (∀ b, b ∉ refBlocks st → st2.bm b = st.bm b) ∧
      st2.ip.size = 0 ∧ st2.dsize = 0 ∧ st2.dtype = 0 ∧
      st2.ip.itype = 0 ∧ st2.ip.valid = false ∧ st2.ip.ref = 0 := by
  obtain ⟨bm2, heq, hzero, hpres⟩ := bfreeList_spec (refBlocks st) st.bm hnd hall
  refine ⟨{ st with
      bm := bm2,
      ip := { st.ip with
              addrs := List.replicate (NDIRECT + 2) 0,
              size := 0,
              itype := 0,
              valid := false,
              ref := st.ip.ref - 1 },
      dtype := 0,
      dsize := 0 }, ?_, ?_, ?_, ?_, ?_, ?_, ?_, ?_, ?_⟩
  · simp [iput, itrunc_eq, heq, href, hval, hnl]
  · exact hzero
  · exact hpres
  · rfl
  · rfl
  · rfl
  · rfl
  · rfl
  · simp [href]

/-- Witness for C6 at a concrete inode whose only content is direct block 3. -/
theorem iput_destroys_witness :
    ∃ st2, iput ⟨fun b => b == 3, fun _ => [],
        ⟨[3, 0, 0, 0, 0, 0, 0, 0, 0, 0, 0, 0, 0], 77, 2, 0, true, 1⟩, 2, 77⟩ =
        some st2 ∧
      (∀ b ∈ refBlocks ⟨fun b => b == 3, fun _ => [],
        ⟨[3, 0, 0, 0, 0, 0, 0, 0, 0, 0, 0, 0, 0], 77, 2, 0, true, 1⟩, 2, 77⟩,
        st2.bm b = false) ∧
      (∀ b, b ∉ refBlocks ⟨fun b => b == 3, fun _ => [],
        ⟨[3, 0, 0, 0, 0, 0, 0, 0, 0, 0, 0, 0, 0], 77, 2, 0, true, 1⟩, 2, 77⟩ →
        st2.bm b = (⟨fun b => b == 3, fun _ => [],
          ⟨[3, 0, 0, 0, 0, 0, 0, 0, 0, 0, 0, 0, 0], 77, 2, 0, true, 1⟩, 2,
          77⟩ : IFs).bm b) ∧
      st2.ip.size = 0 ∧ st2.dsize = 0 ∧ st2.dtype = 0 ∧
      st2.ip.itype = 0 ∧ st2.ip.valid = false ∧ st2.ip.ref = 0 :=
  iput_destroys ⟨fun b => b == 3, fun _ => [],
    ⟨[3, 0, 0, 0, 0, 0, 0, 0, 0, 0, 0, 0, 0], 77, 2, 0, true, 1⟩, 2, 77⟩
    rfl rfl rfl (by decide) (by decide)

/-! ## Inode layer: readi (fs.c) -/

/-- Inode view used by `readi`/`writei`: the file size, the block map
(`bmap`, treated as a pure logical-block-to-disk-block function here; its
allocation behaviour is covered by `bmap_regions`), and the disk byte
content per block. -/
structure RInode where
  size : Nat
  blockOf : Nat → Nat
  disk : Nat → Nat → Nat

/-- The bytes of the file of `ip` at offsets `[off, off+len)`, through the
block map. -/
def fileBytes (ip : RInode) (off len : Nat) : List Nat :=
  (List.range len).map (fun k =>
    ip.disk (ip.blockOf ((off + k) / BSIZE)) ((off + k) % BSIZE))

/-- The copy loop of `readi` (fs.c): each iteration reads the block holding
offset `off`, takes `m = min(n - tot, BSIZE - off % BSIZE)` bytes, and copies
them out; a failing `either_copyout` (the oracle `copyOk` indexed by
iteration count) sets `tot = -1` and breaks.  The loop runs at most `n`
iterations since `m >= 1`; `fuel` bounds the recursion and is always called
with `fuel >= n - tot`. -/
def readi_go (ip : RInode) (copyOk : Nat → Bool) :
    Nat → Nat → Nat → Nat → Nat → Int × List Nat
  | 0, _, _, tot, _ => ((tot : Int), [])
  | fuel + 1, off, n, tot, iter =>
      if tot < n then
        let m := min (n - tot) (BSIZE - off % BSIZE)
        if copyOk iter then
          let chunk := (List.range m).map (fun k =>
            ip.disk (ip.blockOf (off / BSIZE)) (off % BSIZE + k))
          let r := readi_go ip copyOk fuel (off + m) n (tot + m) (iter + 1)
          (r.1, chunk ++ r.2)
        else (-1, [])
      else ((tot : Int), [])

/-- `readi(ip, user_dst, dst, off, n)` from fs.c: returns 0 when
`off > ip->size` or `off + n` overflows (unsigned wraparound); otherwise
clips `n` to `ip->size - off` and runs the copy loop.  The result is the
returned value together with the list of bytes actually transferred. -/
def readi (ip : RInode) (copyOk : Nat → Bool) (off n : Nat) : Int × List Nat :=
  if ip.size < off ∨ (off + n) % 2 ^ 32 < off then (0, [])
  else
    let n2 := if ip.size < off + n then ip.size - off else n
    readi_go ip copyOk n2 off n2 0 0

theorem fileBytes_append (ip : RInode) (off a b : Nat) :
    fileBytes ip off (a + b) = fileBytes ip off a ++ fileBytes ip (off + a) b := by
  simp only [fileBytes, List.range_add, List.map_append, List.map_map]
  congr 1
  apply List.map_congr_left
  intro k _
  simp only [Function.comp_apply]
  have e : off + (a + k) = off + a + k := by omega
  rw [e]

theorem readi_chunk_eq (ip : RInode) (off m : Nat)
    (h : off % BSIZE + m ≤ BSIZE) :
    (List.range m).map (fun k =>
      ip.disk (ip.blockOf (off / BSIZE)) (off % BSIZE + k)) =
    fileBytes ip off m := by
  apply List.map_congr_left
  intro k hk
  have hk2 : k < m := List.mem_range.mp hk
  have h1 : (off + k) / BSIZE = off / BSIZE := by
    show (off + k) / 1024 = off / 1024
    have h2 : off % 1024 + m ≤ 1024 := h
    omega
  have h3 : (off + k) % BSIZE = off % BSIZE + k := by
    show (off + k) % 1024 = off % 1024 + k
    have h2 : off % 1024 + m ≤ 1024 := h
    omega
  rw [h1, h3]

theorem readi_go_ok : ∀ (fuel : Nat) (ip : RInode) (copyOk : Nat → Bool)
    (off n tot iter : Nat), n - tot ≤ fuel → tot ≤ n →
    (∀ i, copyOk i = true) →
    readi_go ip copyOk fuel off n tot iter =
      ((n : Int), fileBytes ip off (n - tot)) := by
  intro fuel
  induction fuel with
  | zero =>
      intro ip copyOk off n tot iter hf ht _
      have he : tot = n := by omega
      subst he
      simp [readi_go, fileBytes]
  | succ fuel ih =>
      intro ip copyOk off n tot iter hf ht hall
      by_cases h : tot < n
      · have hstep : readi_go ip copyOk (fuel + 1) off n tot iter =
            ((readi_go ip copyOk fuel
                (off + min (n - tot) (BSIZE - off % BSIZE)) n
                (tot + min (n - tot) (BSIZE - off % BSIZE)) (iter + 1)).1,
             (List.range (min (n - tot) (BSIZE - off % BSIZE))).map (fun k =>
               ip.disk (ip.blockOf (off / BSIZE)) (off % BSIZE + k)) ++
             (readi_go ip copyOk fuel
                (off + min (n - tot) (BSIZE - off % BSIZE)) n
                (tot + min (n - tot) (BSIZE - off % BSIZE)) (iter + 1)).2) := by
          simp [readi_go, h, hall iter]
        have hm1 : 1 ≤ min (n - tot) (BSIZE - off % BSIZE) := by
          have hb : off % 1024 < 1024 := by omega
          have hb2 : (BSIZE : Nat) = 1024 := rfl
          rw [hb2]
          omega
        have hmle : min (n - tot) (BSIZE - off % BSIZE) ≤ n - tot :=
          Nat.min_le_left _ _
        have hrec := ih ip copyOk (off + min (n - tot) (BSIZE - off % BSIZE)) n
          (tot + min (n - tot) (BSIZE - off % BSIZE)) (iter + 1)
          (by omega) (by omega) hall
        rw [hstep, hrec]
        have hchunk : off % BSIZE + min (n - tot) (BSIZE - off % BSIZE) ≤ BSIZE := by
          have hb : off % 1024 < 1024 := by omega
          have hb2 : (BSIZE : Nat) = 1024 := rfl
          rw [hb2]
          have : min (n - tot) (BSIZE - off % BSIZE) ≤ BSIZE - off % BSIZE :=
            Nat.min_le_right _ _
          rw [hb2] at this
          omega
        rw [readi_chunk_eq ip off _ hchunk]
        rw [← fileBytes_append]
        have he : min (n - tot) (BSIZE - off % BSIZE) +
            (n - (tot + min (n - tot) (BSIZE - off % BSIZE))) = n - tot := by
          omega
        rw [he]
      · have he : tot = n := by omega
        subst he
        simp [readi_go, h, fileBytes]

theorem readi_go_result : ∀ (fuel : Nat) (ip : RInode) (copyOk : Nat → Bool)
    (off n tot iter : Nat), n - tot ≤ fuel → tot ≤ n →
    (readi_go ip copyOk fuel off n tot iter).1 = -1 ∨
    (readi_go ip copyOk fuel off n tot iter).1 = (n : Int) := by
  intro fuel
  induction fuel with
  | zero =>
      intro ip copyOk off n tot iter hf ht
      have he : tot = n := by omega
      subst he
      right
      rfl
  | succ fuel ih =>
      intro ip copyOk off n tot iter hf ht
      by_cases h : tot < n
      · by_cases hc : copyOk iter = true
        · have hm1 : 1 ≤ min (n - tot) (BSIZE - off % BSIZE) := by
            have hb : off % 1024 < 1024 := by omega
            have hb2 : (BSIZE : Nat) = 1024 := rfl
            rw [hb2]
            omega
          have hmle : min (n - tot) (BSIZE - off % BSIZE) ≤ n - tot :=
            Nat.min_le_left _ _
          have hrec := ih ip copyOk (off + min (n - tot) (BSIZE - off % BSIZE)) n
            (tot + min (n - tot) (BSIZE - off % BSIZE)) (iter + 1)
            (by omega) (by omega)
          have hstep : (readi_go ip copyOk (fuel + 1) off n tot iter).1 =
              (readi_go ip copyOk fuel
                (off + min (n - tot) (BSIZE - off % BSIZE)) n
                (tot + min (n - tot) (BSIZE - off % BSIZE)) (iter + 1)).1 := by
            simp [readi_go, h, hc]
          rw [hstep]
          exact hrec
        · left
          simp [readi_go, h, hc]
      · have he : tot = n := by omega
        subst he
        right
        simp [readi_go, h]

/-- C8 as amended: `readi` returns 0 and transfers nothing when
`off > ip.size` or `off + n` wraps; otherwise, when every user-memory copy
succeeds, it transfers exactly the `min(n, ip.size - off)` bytes of the file
starting at `off` and returns that count — and in every case its return value
is either that count or `-1`, the value produced when an `either_copyout`
fails (the code sets `tot = -1` and breaks; it does not return the partial
count). -/
theorem readi_spec (ip : RInode) (copyOk : Nat → Bool) (off n : Nat)
    (hoff : off < 2 ^ 32) (hn : n < 2 ^ 32) :
    (ip.size < off ∨ (off + n) % 2 ^ 32 < off →
      readi ip copyOk off n = (0, [])) ∧
    (off ≤ ip.size → ¬ (off + n) % 2 ^ 32 < off →
      ((∀ i, copyOk i = true) →
        readi ip copyOk off n =
          (((min n (ip.size - off) : Nat) : Int),
            fileBytes ip off (min n (ip.size - off)))) ∧
      ((readi ip copyOk off n).1 = -1 ∨
        (readi ip copyOk off n).1 = ((min n (ip.size - off) : Nat) : Int))) := by
  constructor
  · intro hbad
    simp only [readi, if_pos hbad]
  · intro hle hnw
    have hcond : ¬ (ip.size < off ∨ (off + n) % 2 ^ 32 < off) := by
      push_neg
      exact ⟨by omega, by omega⟩
    have hn2 : (if ip.size < off + n then ip.size - off else n) =
        min n (ip.size - off) := by
      by_cases h : ip.size < off + n
      · rw [if_pos h]
        omega
      · rw [if_neg h]
        omega
    constructor
    · intro hall
      simp only [readi, if_neg hcond]
      rw [hn2]
      have h := readi_go_ok (min n (ip.size - off)) ip copyOk off
        (min n (ip.size - off)) 0 0 (by omega) (by omega) hall
      rw [h, Nat.sub_zero]
    · simp only [readi, if_neg hcond]
      rw [hn2]
      exact readi_go_result (min n (ip.size - off)) ip copyOk off
        (min n (ip.size - off)) 0 0 (by omega) (by omega)

/-- C8 counterexample to the claim as stated: with `off = 0`, `n = 2`,
`size = 4` (in range, no overflow) and a failing first copy, zero bytes were
transferred before the failure, so the claim predicts a return of 0; the code
returns -1. -/
theorem readi_copyfail_counterexample :
    readi ⟨4, fun _ => 0, fun _ _ => 7⟩ (fun _ => false) 0 2 = (-1, []) ∧
    (-1 : Int) ≠ ((0 : Nat) : Int) := by
  decide

/-- Witness for the amended C8 at a concrete file. -/
theorem readi_spec_witness :
    readi ⟨4, fun _ => 0, fun _ _ => 7⟩ (fun _ => true) 0 2 = ((2 : Int), [7, 7]) := by
  have h := ((readi_spec ⟨4, fun _ => 0, fun _ _ => 7⟩ (fun _ => true) 0 2
    (by decide) (by decide)).2 (by decide) (by decide)).1 (fun _ => rfl)
  rw [h]
  decide

/-! ## Inode layer: writei (fs.c) -/

/-- Result of `writei`: the returned value, the resulting `ip->size`, the
trace of data blocks `log_write`-n (in order), and whether `iupdate` ran. -/
structure WRes where
  ret : Int
  size : Nat
  logs : List Nat
  iupdated : Bool
  deriving Repr, DecidableEq

/-- The copy loop of `writei` (fs.c): each iteration `bread`s the block that
`bmap` gives for the current offset, copies `m` bytes in, and on success
`log_write`s that block; a failing `either_copyin` breaks without
`log_write`, leaving `tot` (and hence `off`) at the bytes copied so far.
`fuel` bounds the recursion as in `readi_go`.  Returns the final `tot` and
the `log_write` trace. -/
def writei_go (blockOf : Nat → Nat) (copyOk : Nat → Bool) :
    Nat → Nat → Nat → Nat → Nat → Nat × List Nat
  | 0, _, _, tot, _ => (tot, [])
  | fuel + 1, off, n, tot, iter =>
      if tot < n then
        let m := min (n - tot) (BSIZE - off % BSIZE)
        if copyOk iter then
          let r := writei_go blockOf copyOk fuel (off + m) n (tot + m) (iter + 1)
          (r.1, blockOf (off / BSIZE) :: r.2)
        else (tot, [])
      else (tot, [])

/-- The block numbers a fully successful `writei` loop passes to `log_write`,
one per chunk. -/
def writeBlocks (blockOf : Nat → Nat) : Nat → Nat → Nat → Nat → List Nat
  | 0, _, _, _ => []
  | fuel + 1, off, n, tot =>
      if tot < n then
        let m := min (n - tot) (BSIZE - off % BSIZE)
        blockOf (off / BSIZE) :: writeBlocks blockOf fuel (off + m) n (tot + m)
      else []

/-- `writei(ip, user_src, src, off, n)` from fs.c: returns -1 when
`off > ip->size`, when `off + n` wraps, or when `off + n > MAXFILE*BSIZE`
(without touching anything); otherwise runs the loop, extends `ip->size` to
the final offset `off + tot` when that passed the old size, always calls
`iupdate`, and returns the number of bytes written. -/
def writei (sz : Nat) (blockOf : Nat → Nat) (copyOk : Nat → Bool)
    (off n : Nat) : WRes :=
  if sz < off ∨ (off + n) % 2 ^ 32 < off then ⟨-1, sz, [], false⟩
  else if MAXFILE * BSIZE < off + n then ⟨-1, sz, [], false⟩
  else
    let r := writei_go blockOf copyOk n off n 0 0
    let off2 := off + r.1
    ⟨(r.1 : Int), if sz < off2 then off2 else sz, r.2, true⟩

theorem writei_go_ok : ∀ (fuel : Nat) (blockOf : Nat → Nat)
    (copyOk : Nat → Bool) (off n tot iter : Nat), n - tot ≤ fuel → tot ≤ n →
    (∀ i, copyOk i = true) →
    writei_go blockOf copyOk fuel off n tot iter =
      (n, writeBlocks blockOf fuel off n tot) := by
  intro fuel
  induction fuel with
  | zero =>
      intro blockOf copyOk off n tot iter hf ht _
      have he : tot = n := by omega
      subst he
      simp [writei_go, writeBlocks]
  | succ fuel ih =>
      intro blockOf copyOk off n tot iter hf ht hall
      by_cases h : tot < n
      · have hm1 : 1 ≤ min (n - tot) (BSIZE - off % BSIZE) := by
          have hb : off % 1024 < 1024 := by omega
          have hb2 : (BSIZE : Nat) = 1024 := rfl
          rw [hb2]
          omega
        have hmle : min (n - tot) (BSIZE - off % BSIZE) ≤ n - tot :=
          Nat.min_le_left _ _
        have hrec := ih blockOf copyOk (off + min (n - tot) (BSIZE - off % BSIZE))
          n (tot + min (n - tot) (BSIZE - off % BSIZE)) (iter + 1)
          (by omega) (by omega) hall
        have hstep : writei_go blockOf copyOk (fuel + 1) off n tot iter =
            ((writei_go blockOf copyOk fuel
                (off + min (n - tot) (BSIZE - off % BSIZE)) n
                (tot + min (n - tot) (BSIZE - off % BSIZE)) (iter + 1)).1,
             blockOf (off / BSIZE) ::
              (writei_go blockOf copyOk fuel
                (off + min (n - tot) (BSIZE - off % BSIZE)) n
                (tot + min (n - tot) (BSIZE - off % BSIZE)) (iter + 1)).2) := by
          simp [writei_go, h, hall iter]
        rw [hstep, hrec]
        have hwb : writeBlocks blockOf (fuel + 1) off n tot =
            blockOf (off / BSIZE) :: writeBlocks blockOf fuel
              (off + min (n - tot) (BSIZE - off % BSIZE)) n
              (tot + min (n - tot) (BSIZE - off % BSIZE)) := by
          simp [writeBlocks, h]
        rw [hwb]
      · have he : tot = n := by omega
        subst he
        simp [writei_go, writeBlocks, h]

theorem writei_go_tot : ∀ (fuel : Nat) (blockOf : Nat → Nat)
    (copyOk : Nat → Bool) (off n tot iter : Nat), tot ≤ n →
    tot ≤ (writei_go blockOf copyOk fuel off n tot iter).1 ∧
    (writei_go blockOf copyOk fuel off n tot iter).1 ≤ n := by
  intro fuel
  induction fuel with
  | zero =>
      intro blockOf copyOk off n tot iter ht
      exact ⟨Nat.le_refl tot, ht⟩
  | succ fuel ih =>
      intro blockOf copyOk off n tot iter ht
      by_cases h : tot < n
      · by_cases hc : copyOk iter = true
        · have hmle : min (n - tot) (BSIZE - off % BSIZE) ≤ n - tot :=
            Nat.min_le_left _ _
          have hrec := ih blockOf copyOk
            (off + min (n - tot) (BSIZE - off % BSIZE)) n
            (tot + min (n - tot) (BSIZE - off % BSIZE)) (iter + 1) (by omega)
          have hstep : (writei_go blockOf copyOk (fuel + 1) off n tot iter).1 =
              (writei_go blockOf copyOk fuel
                (off + min (n - tot) (BSIZE - off % BSIZE)) n
                (tot + min (n - tot) (BSIZE - off % BSIZE)) (iter + 1)).1 := by
            simp [writei_go, h, hc]
          rw [hstep]
          exact ⟨by omega, hrec.2⟩
        · have hstep : (writei_go blockOf copyOk (fuel + 1) off n tot iter).1 =
              tot := by
            simp [writei_go, h, hc]
          rw [hstep]
          exact ⟨Nat.le_refl tot, ht⟩
      · have hstep : (writei_go blockOf copyOk (fuel + 1) off n tot iter).1 =
            tot := by
          simp [writei_go, h]
        rw [hstep]
        exact ⟨Nat.le_refl tot, ht⟩

/-- C9: `writei` returns -1 (touching nothing, no `iupdate`) when
`off > ip.size`, when `off + n` wraps, or when `off + n` exceeds
`MAXFILE*BSIZE`.  Otherwise it writes block-at-a-time through `bmap`,
`log_write`-ing each data block it copies into; when every copy succeeds it
returns `n` with one `log_write` per chunk (`writeBlocks`); in every
non-error case it returns the number `tot` of bytes written, sets the size
to `max(old size, off + tot)` — so a partial transfer that passed the old
end still grows the file — and always calls `iupdate`. -/
theorem writei_spec (sz : Nat) (blockOf : Nat → Nat) (copyOk : Nat → Bool)
    (off n : Nat) (hoff : off < 2 ^ 32) (hn : n < 2 ^ 32) :
    (sz < off ∨ (off + n) % 2 ^ 32 < off ∨ MAXFILE * BSIZE < off + n →
      writei sz blockOf copyOk off n = ⟨-1, sz, [], false⟩) ∧
    (off ≤ sz → ¬ (off + n) % 2 ^ 32 < off → off + n ≤ MAXFILE * BSIZE →
      ((∀ i, copyOk i = true) →
        writei sz blockOf copyOk off n =
          ⟨(n : Int), max sz (off + n), writeBlocks blockOf n off n 0, true⟩) ∧
      (∃ tot logs, tot ≤ n ∧
        writei sz blockOf copyOk off n =
          ⟨(tot : Int), max sz (off + tot), logs, true⟩)) := by
  constructor
  · intro hbad
    by_cases hg1 : sz < off ∨ (off + n) % 2 ^ 32 < off
    · simp only [writei, if_pos hg1]
    · have h3 : MAXFILE * BSIZE < off + n := by
        rcases hbad with h | h | h
        · exact absurd (Or.inl h) hg1
        · exact absurd (Or.inr h) hg1
        · exact h
      simp only [writei, if_neg hg1, if_pos h3]
  · intro hle hnw hmax
    have hg1 : ¬ (sz < off ∨ (off + n) % 2 ^ 32 < off) := by
      push_neg
      exact ⟨by omega, by omega⟩
    have hg2 : ¬ MAXFILE * BSIZE < off + n := by omega
    constructor
    · intro hall
      simp only [writei, if_neg hg1, if_neg hg2]
      rw [writei_go_ok n blockOf copyOk off n 0 0 (by omega) (by omega) hall]
      have hsz : (if sz < off + n then off + n else sz) = max sz (off + n) := by
        by_cases h : sz < off + n
        · rw [if_pos h]
          exact (Nat.max_eq_right (by omega)).symm
        · rw [if_neg h]
          exact (Nat.max_eq_left (by omega)).symm
      rw [hsz]
    · simp only [writei, if_neg hg1, if_neg hg2]
      refine ⟨(writei_go blockOf copyOk n off n 0 0).1,
        (writei_go blockOf copyOk n off n 0 0).2, ?_, ?_⟩
      · exact (writei_go_tot n blockOf copyOk off n 0 0 (by omega)).2
      · have hsz : (if sz < off + (writei_go blockOf copyOk n off n 0 0).1
            then off + (writei_go blockOf copyOk n off n 0 0).1 else sz) =
            max sz (off + (writei_go blockOf copyOk n off n 0 0).1) := by
          by_cases h : sz < off + (writei_go blockOf copyOk n off n 0 0).1
          · rw [if_pos h]
            exact (Nat.max_eq_right (by omega)).symm
          · rw [if_neg h]
            exact (Nat.max_eq_left (by omega)).symm
        rw [hsz]

/-- Witness for C9 at a concrete write entirely inside one block. -/
theorem writei_spec_witness :
    writei 0 (fun _ => 5) (fun _ => true) 0 2 = ⟨2, 2, [5], true⟩ := by
  have h := ((writei_spec 0 (fun _ => 5) (fun _ => true) 0 2
    (by decide) (by decide)).2 (by decide) (by decide) (by decide)).1
    (fun _ => rfl)
  rw [h]
  decide

/-! ## Path resolution: skipelem and namecmp (fs.c) -/

/-- `skipelem(path, name)` from fs.c, with a C string modelled as the list of
its bytes before the terminating NUL (47 is the slash).  Strips leading
slashes; an exhausted path returns none.  Otherwise the component is the run
of non-slash bytes; when its length is at least `DIRSIZ` exactly the first
`DIRSIZ` bytes are copied into `name` with no terminating NUL, and when it is
shorter the bytes are copied and NUL-terminated.  The walk then skips the
rest of the full component and any following slashes, returning the
remainder and the bytes written to `name`. -/
def skipelem (path : List Nat) : Option (List Nat × List Nat) :=
  let p1 := path.dropWhile (fun c => c == 47)
  match p1 with
  | [] => none
  | c :: cs =>
      let comp := (c :: cs).takeWhile (fun x => x != 47)
      let rest := (c :: cs).dropWhile (fun x => x != 47)
      let name := if DIRSIZ ≤ comp.length then comp.take DIRSIZ
        else comp ++ [0]
      some (rest.dropWhile (fun x => x == 47), name)

/-- `strncmp(p, q, n)` from the kernel string library, on byte lists (reads
beyond the end of a list see NUL). -/
def strncmp : List Nat → List Nat → Nat → Int
  | _, _, 0 => 0
  | p, q, n + 1 =>
      let a := p.headD 0
      let b := q.headD 0
      if a ≠ 0 ∧ a = b then strncmp (p.drop 1) (q.drop 1) n
      else (a : Int) - (b : Int)

/-- `namecmp(s, t) = strncmp(s, t, DIRSIZ)` from fs.c: directory-name
comparison looks at the first `DIRSIZ` bytes only. -/
def namecmp (s t : List Nat) : Int := strncmp s t DIRSIZ

theorem dropWhile_append_all (p : Nat → Bool) (l xs : List Nat)
    (h : ∀ c ∈ l, p c = true) :
    (l ++ xs).dropWhile p = xs.dropWhile p := by
  induction l with
  | nil => rfl
  | cons a t ih =>
      have ha : p a = true := h a (List.mem_cons_self a t)
      simp only [List.cons_append, List.dropWhile_cons, ha, if_true]
      exact ih (fun c hc => h c (List.mem_cons_of_mem a hc))

theorem takeWhile_append_all (p : Nat → Bool) (l xs : List Nat)
    (h : ∀ c ∈ l, p c = true) :
    (l ++ xs).takeWhile p = l ++ xs.takeWhile p := by
  induction l with
  | nil => rfl
  | cons a t ih =>
      have ha : p a = true := h a (List.mem_cons_self a t)
      simp only [List.cons_append, List.takeWhile_cons, ha, if_true]
      rw [ih (fun c hc => h c (List.mem_cons_of_mem a hc))]

theorem strncmp_take : ∀ (n : Nat) (s t : List Nat),
    strncmp (s.take n) (t.take n) n = strncmp s t n := by
  intro n
  induction n with
  | zero => intro s t; rfl
  | succ n ih =>
      intro s t
      cases s with
      | nil =>
          cases t with
          | nil => rfl
          | cons b bs =>
              simp only [List.take_nil, List.take_succ_cons, strncmp,
                List.headD_nil, List.headD_cons, List.drop]
              by_cases h : (0 : Nat) ≠ 0 ∧ (0 : Nat) = b
              · exact absurd rfl h.1
              · rw [if_neg h, if_neg h]
      | cons a as =>
          cases t with
          | nil =>
              simp only [List.take_nil, List.take_succ_cons, strncmp,
                List.headD_nil, List.headD_cons, List.drop]
              by_cases h : a ≠ 0 ∧ a = 0
              · exact absurd h.2 h.1
              · rw [if_neg h, if_neg h]
          | cons b bs =>
              simp only [List.take_succ_cons, strncmp, List.headD_cons,
                List.drop]
              by_cases h : a ≠ 0 ∧ a = b
              · rw [if_pos h, if_pos h]
                exact ih as bs
              · rw [if_neg h, if_neg h]

theorem skipelem_eq (lead comp rest : List Nat)
    (hlead : ∀ c ∈ lead, c = 47) (hcomp : ∀ c ∈ comp, c ≠ 47)
    (hne : comp ≠ []) (hrest : rest = [] ∨ ∃ r2, rest = 47 :: r2) :
    skipelem (lead ++ comp ++ rest) =
      some (rest.dropWhile (fun x => x == 47),
        if DIRSIZ ≤ comp.length then comp.take DIRSIZ else comp ++ [0]) := by
  cases comp with
  | nil => exact absurd rfl hne
  | cons c0 ct =>
      have hc0 : (c0 == 47) = false := by
        have h := hcomp c0 (List.mem_cons_self c0 ct)
        simp [h]
      have hp1 : (lead ++ (c0 :: ct) ++ rest).dropWhile (fun c => c == 47) =
          c0 :: (ct ++ rest) := by
        rw [List.append_assoc]
        rw [dropWhile_append_all _ lead _ (by
          intro c hc
          simp [hlead c hc])]
        simp only [List.cons_append, List.dropWhile_cons, hc0]
        rfl
      have htk : (c0 :: (ct ++ rest)).takeWhile (fun x => x != 47) =
          c0 :: ct := by
        have h1 : ((c0 :: ct) ++ rest).takeWhile (fun x => x != 47) =
            (c0 :: ct) ++ rest.takeWhile (fun x => x != 47) :=
          takeWhile_append_all _ (c0 :: ct) rest (by
            intro c hc
            simp [hcomp c hc])
        have h2 : rest.takeWhile (fun x => x != 47) = [] := by
          rcases hrest with h | ⟨r2, h⟩
          · rw [h]
            rfl
          · rw [h]
            rfl
        rw [List.cons_append] at h1
        rw [h1, h2, List.append_nil]
      have hdp : (c0 :: (ct ++ rest)).dropWhile (fun x => x != 47) = rest := by
        have h1 : ((c0 :: ct) ++ rest).dropWhile (fun x => x != 47) =
            rest.dropWhile (fun x => x != 47) :=
          dropWhile_append_all _ (c0 :: ct) rest (by
            intro c hc
            simp [hcomp c hc])
        have h2 : rest.dropWhile (fun x => x != 47) = rest := by
          rcases hrest with h | ⟨r2, h⟩
          · rw [h]
            rfl
          · rw [h]
            rfl
        rw [List.cons_append] at h1
        rw [h1, h2]
      simp only [skipelem, hp1, htk, hdp]

/-- C10: for a path whose next component (after stripping leading slashes)
has length at least `DIRSIZ`, `skipelem` copies exactly the first `DIRSIZ`
bytes of the component into `name` with no terminating NUL (the output is
`DIRSIZ` bytes long and, since C string bytes are nonzero, contains no NUL),
silently truncating the rest, and still returns the remainder that follows
the full untruncated component; a shorter component is NUL-terminated; and
`namecmp` (hence the lookup `namex` performs) depends only on the first
`DIRSIZ` bytes of each name, so an over-long component resolves against its
first `DIRSIZ` bytes instead of failing. -/
theorem skipelem_truncation (lead comp rest : List Nat)
    (hlead : ∀ c ∈ lead, c = 47)
    (hcomp : ∀ c ∈ comp, c ≠ 47)
    (hzero : ∀ c ∈ comp, c ≠ 0)
    (hne : comp ≠ [])
    (hrest : rest = [] ∨ ∃ r2, rest = 47 :: r2) :
    (DIRSIZ ≤ comp.length →
      skipelem (lead ++ comp ++ rest) =
        some (rest.dropWhile (fun x => x == 47), comp.take DIRSIZ) ∧
      (comp.take DIRSIZ).length = DIRSIZ ∧
      (0 : Nat) ∉ comp.take DIRSIZ) ∧
    (comp.length < DIRSIZ →
      skipelem (lead ++ comp ++ rest) =
        some (rest.dropWhile (fun x => x == 47), comp ++ [0])) ∧
    (∀ s t : List Nat, namecmp s t = namecmp (s.take DIRSIZ) (t.take DIRSIZ)) := by
  refine ⟨?_, ?_, ?_⟩
  · intro hlen
    refine ⟨?_, ?_, ?_⟩
    · rw [skipelem_eq lead comp rest hlead hcomp hne hrest, if_pos hlen]
    · rw [List.length_take]
      omega
    · intro hmem
      exact hzero 0 (List.take_subset _ _ hmem) rfl
  · intro hlt
    rw [skipelem_eq lead comp rest hlead hcomp hne hrest,
      if_neg (by omega)]
  · intro s t
    simp only [namecmp]
    exact (strncmp_take DIRSIZ s t).symm

/-- Witness for C10: a 16-byte component is truncated to its first `DIRSIZ`
bytes and the remainder after the full component is returned. -/
theorem skipelem_truncation_witness :
    skipelem ([47] ++
        [97, 98, 99, 100, 101, 102, 103, 104, 105, 106, 107, 108, 109, 110,
          111, 112] ++ [47, 113]) =
      some (([47, 113] : List Nat).dropWhile (fun x => x == 47),
        ([97, 98, 99, 100, 101, 102, 103, 104, 105, 106, 107, 108, 109, 110,
          111, 112] : List Nat).take DIRSIZ) :=
  ((skipelem_truncation [47]
    [97, 98, 99, 100, 101, 102, 103, 104, 105, 106, 107, 108, 109, 110, 111,
      112] [47, 113] (by decide) (by decide) (by decide) (by decide)
    (Or.inr ⟨[113], rfl⟩)).1 (by decide)).1
